import Mathlib

/-!
Verification of the next-strip page classifier and HTML stripping pipeline.

The development shallowly embeds the TypeScript sources:
  - the pattern catalog (constants.ts): event-handler / hook / client-marker /
    navigation-link / framework-script patterns, modelled as executable text
    scanners over `List Char` (JS regexes of the restricted shapes used there);
  - the page analyzer (page-analyzer.ts): import extraction, import resolution,
    the recursive dependency crawl with its visited set, indicator detection and
    `classifyPage`;
  - the script stripper (script-stripper.ts): `stripAllScripts`,
    `shouldPreserveInlineScript`, `processHtmlFile`, `getProcessedHtml`, over a
    DOM-tree model of the cheerio document (parsing/serialisation of HTML is
    modelled by working on the parsed node tree directly);
  - page discovery (output-generator.ts): `findSourceForHtml`,
    `findGeneratedPages` over an explicit file-system model.

Text is `List Char`; the file system is a finite association list of readable
files plus a list of paths that exist but cannot be read.
-/

abbrev Str := List Char

/-- Single-quote character (avoids quote-escaping in literals). -/
def squote : Char := Char.ofNat 39

/-- JS word character for the boundary assertion: [A-Za-z0-9_]. -/
def isWordChar (c : Char) : Bool := c.isAlpha || c.isDigit || c == '_'

/-- JS whitespace class membership (the subset relevant to source text). -/
def isWsChar (c : Char) : Bool :=
  c == ' ' || c == '\t' || c == '\n' || c == '\r' || c == Char.ofNat 11 || c == Char.ofNat 12

/-- JS dot (without the s flag): any char except line terminators. -/
def isDotChar (c : Char) : Bool :=
  !(c == '\n' || c == '\r' || c == Char.ofNat 0x2028 || c == Char.ofNat 0x2029)

/-- Boolean test that a list is a prefix of another. -/
def pfx : Str → Str → Bool
  | [], _ => true
  | _ :: _, [] => false
  | a :: as, b :: bs => if a = b then pfx as bs else false

/-- Drop a given prefix, returning the remainder when it is present. -/
def dropPfx : Str → Str → Option Str
  | [], s => some s
  | _ :: _, [] => none
  | a :: as, b :: bs => if a = b then dropPfx as bs else none

/-- Last character of a list, with a fallback for the empty list. -/
def lastO (prev : Option Char) : Str → Option Char
  | [] => prev
  | c :: rest => lastO (some c) rest

/-- Existential position scanner: does `f prev suffix` hold at some position?
`prev` is the character immediately before the position. -/
def scanStr (f : Option Char → Str → Bool) : Option Char → Str → Bool
  | prev, [] => f prev []
  | prev, c :: rest => f prev (c :: rest) || scanStr f (some c) rest

/-- Universal position scanner: does `f prev suffix` hold at every position? -/
def allPos (f : Option Char → Str → Bool) : Option Char → Str → Bool
  | prev, [] => f prev []
  | prev, c :: rest => f prev (c :: rest) && allPos f (some c) rest

/-- Substring test, modelling `RegExp.test` for a regex that is a plain literal. -/
def containsSub (lit : Str) (s : Str) : Bool :=
  scanStr (fun _ t => pfx lit t) none s

/-- Word-character test on an optional character (start of string is non-word). -/
def wordO : Option Char → Bool
  | none => false
  | some c => isWordChar c

/-- JS word-boundary condition between a preceding character and a next one. -/
def isBoundary (prev : Option Char) (next : Option Char) : Bool :=
  wordO prev != wordO next

/-- Test of a regex of shape `\b<lit>`: the literal occurs at a word boundary. -/
def testWordBoundaryPat (lit : Str) (s : Str) : Bool :=
  scanStr (fun prev t => isBoundary prev lit.head? && pfx lit t) none s

/-- Test of a regex of shape `\b<lit>\b`. -/
def testWordBothPat (lit : Str) (s : Str) : Bool :=
  scanStr
    (fun prev t =>
      isBoundary prev lit.head? &&
        match dropPfx lit t with
        | none => false
        | some rest => isBoundary (lastO none lit) rest.head?)
    none s

/-- Every occurrence of `lit` in `s` is immediately preceded by the character `c`. -/
def litOnlyAfter (c : Char) (lit : Str) (s : Str) : Bool :=
  allPos (fun prev t => !(pfx lit t) || decide (prev = some c)) none s

/-- Opening brace character. -/
def lbrace : Char := Char.ofNat 123

/-- Closing brace character. -/
def rbrace : Char := Char.ofNat 125

/-- Quote class of the source regexes. -/
def isQuoteChar (c : Char) : Bool := c == '"' || c == squote

/-- Remainders after consuming one or more characters of the class `f`
(shortest consumption first). -/
def clsPlusRems (f : Char → Bool) : Str → List Str
  | [] => []
  | c :: t => if f c then t :: clsPlusRems f t else []

/-- Remainders after consuming zero or more characters of the class `f`. -/
def clsStarRems (f : Char → Bool) (s : Str) : List Str :=
  s :: clsPlusRems f s

/-- Tail `\s+from\s+<quote>next\/link<quote>` of the two import regexes of
NEXT_LINK_PATTERNS, tested at the start of `r`. -/
def nextLinkFromTail (r : Str) : Bool :=
  (clsPlusRems isWsChar r).any fun r5 =>
    match dropPfx ("from".toList) r5 with
    | none => false
    | some r6 =>
      (clsPlusRems isWsChar r6).any fun r7 =>
        match r7 with
        | q :: r8 =>
          isQuoteChar q &&
            (match dropPfx ("next/link".toList) r8 with
             | some (q2 :: _) => isQuoteChar q2
             | _ => false)
        | [] => false

/-- First NEXT_LINK pattern, at one position:
`import\s+(?:\x7b\s*)?Link(?:\s*\x7d)?\s+from\s+<quote>next\/link<quote>`. -/
def matchImportLinkNamedAt (s : Str) : Bool :=
  match dropPfx ("import".toList) s with
  | none => false
  | some r =>
    (clsPlusRems isWsChar r).any fun r1 =>
      let cands2 := r1 ::
        (match dropPfx [lbrace] r1 with
         | some rb => clsStarRems isWsChar rb
         | none => [])
      cands2.any fun r2 =>
        match dropPfx ("Link".toList) r2 with
        | none => false
        | some r3 =>
          let cands4 := r3 :: ((clsStarRems isWsChar r3).filterMap (dropPfx [rbrace]))
          cands4.any nextLinkFromTail

/-- Second NEXT_LINK pattern, at one position:
`import\s+\x7b\s*[^\x7d]*Link[^\x7d]*\s*\x7d\s+from\s+<quote>next\/link<quote>`. -/
def matchImportLinkBraceAt (s : Str) : Bool :=
  match dropPfx ("import".toList) s with
  | none => false
  | some r =>
    (clsPlusRems isWsChar r).any fun r1 =>
      match dropPfx [lbrace] r1 with
      | none => false
      | some r2 =>
        (clsStarRems isWsChar r2).any fun r3 =>
          (clsStarRems (fun c => !(c == rbrace)) r3).any fun r4 =>
            match dropPfx ("Link".toList) r4 with
            | none => false
            | some r5 =>
              (clsStarRems (fun c => !(c == rbrace)) r5).any fun r6 =>
                (clsStarRems isWsChar r6).any fun r7 =>
                  match dropPfx [rbrace] r7 with
                  | none => false
                  | some r8 => nextLinkFromTail r8

/-- Third NEXT_LINK pattern `<Link\s+`, at one position. -/
def matchLinkTagAt (s : Str) : Bool :=
  match dropPfx ("<Link".toList) s with
  | some (c :: _) => isWsChar c
  | _ => false

/-- NEXT_LINK_PATTERNS of constants.ts, as whole-text tests. -/
def NEXT_LINK_PATTERNS : List (Str → Bool) :=
  [fun c => scanStr (fun _ t => matchImportLinkNamedAt t) none c,
   fun c => scanStr (fun _ t => matchImportLinkBraceAt t) none c,
   fun c => scanStr (fun _ t => matchLinkTagAt t) none c,
   fun c => containsSub ("<Link>".toList) c]

/-- detectClientSideRouting of page-analyzer.ts. -/
def detectClientSideRouting (content : Str) : Bool :=
  NEXT_LINK_PATTERNS.any fun p => p content

/-- The 15 `\b<handler>=` literals of EVENT_HANDLER_PROPS before the
onTouchMove entry, in source order. -/
def EVENT_HANDLER_LITS_A : List Str :=
  (["onClick=", "onChange=", "onSubmit=", "onKeyDown=", "onKeyUp=", "onKeyPress=",
    "onFocus=", "onBlur=", "onInput=", "onMouseOver=", "onMouseOut=",
    "onMouseDown=", "onMouseUp=", "onTouchStart=", "onTouchEnd="]).map String.toList

/-- The 3 `\b<handler>=` literals of EVENT_HANDLER_PROPS after the
onTouchMove entry, in source order. -/
def EVENT_HANDLER_LITS_B : List Str :=
  (["onDragStart=", "onDragEnd=", "onDrop="]).map String.toList

/-- The onTouchMove literal. Its regex in constants.ts is `\nonTouchMove=`:
a literal newline followed by the literal, not a word boundary. -/
def onTouchMoveLit : Str := "onTouchMove=".toList

/-- EVENT_HANDLER_PROPS of constants.ts: 18 word-boundary patterns and the
newline-anchored onTouchMove pattern, in source order. -/
def EVENT_HANDLER_PROPS : List (Str → Bool) :=
  EVENT_HANDLER_LITS_A.map testWordBoundaryPat ++
    [fun s => containsSub ('\n' :: onTouchMoveLit) s] ++
    EVENT_HANDLER_LITS_B.map testWordBoundaryPat

/-- detectEventHandlers of page-analyzer.ts. -/
def detectEventHandlers (content : Str) : Bool :=
  EVENT_HANDLER_PROPS.any fun p => p content

/-- REACT_HOOK_PATTERNS of constants.ts: each `\b<hook>\b`. -/
def REACT_HOOK_LITS : List Str :=
  (["useState", "useEffect", "useCallback", "useMemo", "useRef", "useContext",
    "useReducer", "useLayoutEffect", "useImperativeHandle", "useDebugValue",
    "useId", "useSyncExternalStore", "useTransition", "useDeferredValue"]).map String.toList

/-- detectReactHooks of page-analyzer.ts. -/
def detectReactHooks (content : Str) : Bool :=
  (REACT_HOOK_LITS.map testWordBothPat).any fun p => p content

/-- The double-quoted client directive literal. -/
def useClientDq : Str := "\"use client\"".toList

/-- The single-quoted client directive literal. -/
def useClientSq : Str := squote :: "use client".toList ++ [squote]

/-- CLIENT_COMPONENT_PATTERNS of constants.ts. -/
def CLIENT_COMPONENT_PATTERNS : List Str := [useClientDq, useClientSq]

/-- detectClientComponents of page-analyzer.ts. -/
def detectClientComponents (content : Str) : Bool :=
  CLIENT_COMPONENT_PATTERNS.any fun p => containsSub p content

/-- The interactivity check of checkClientCodeRecursive (page-analyzer.ts,
lines 71-77): client marker, hook or event handler in one module text. -/
def clientDetected (content : Str) : Bool :=
  detectClientComponents content || detectReactHooks content || detectEventHandlers content

/-- NEXTJS_SCRIPT_PATTERNS of constants.ts (all literal substrings). -/
def NEXTJS_SCRIPT_PATTERNS : List Str :=
  (["_next/static/", "__NEXT_DATA__", "self.__next_f", "next/dist/"]).map String.toList

/-- isNextJsScript of script-stripper.ts. -/
def isNextJsScript (src : Str) : Bool :=
  if src.isEmpty then false
  else NEXTJS_SCRIPT_PATTERNS.any fun p => containsSub p src

/-- The greedy part `<quote>([^quote]+)<quote>` of the import regex: opening
quote, non-empty maximal run of non-quote characters (the capture), closing
quote. Returns the capture and the remainder after the match. -/
def parseQuotedSpec (r : Str) : Option (Str × Str) :=
  match r with
  | q :: r2 =>
    if isQuoteChar q then
      let cap := r2.takeWhile fun c => !(isQuoteChar c)
      match r2.drop cap.length with
      | q2 :: r3 => if isQuoteChar q2 && !cap.isEmpty then some (cap, r3) else none
      | [] => none
    else none
  | [] => none

/-- Tail `\s+from\s+<quote>([^quote]+)<quote>` of the import regex, at the
start of `r` (greedy whitespace runs tried longest first). -/
def importFromTail (r : Str) : Option (Str × Str) :=
  ((clsPlusRems isWsChar r).reverse).findSome? fun r2 =>
    match dropPfx ("from".toList) r2 with
    | none => none
    | some r3 => ((clsPlusRems isWsChar r3).reverse).findSome? parseQuotedSpec

/-- The lazy `.*?` of the import regex: try `importFromTail` at the current
position first, else advance over one non-line-terminator character. -/
def lazyDotFrom : Str → Option (Str × Str)
  | [] => none
  | c :: t =>
    match importFromTail (c :: t) with
    | some res => some res
    | none => if isDotChar c then lazyDotFrom t else none

/-- Attempt of the whole import regex
`import\s+.*?\s+from\s+<quote>([^quote]+)<quote>` at one position. -/
def matchImportStmtAt (s : Str) : Option (Str × Str) :=
  match dropPfx ("import".toList) s with
  | none => none
  | some r => ((clsPlusRems isWsChar r).reverse).findSome? lazyDotFrom

/-- Repeated leftmost matching of the import regex (the `g`-flag exec loop of
extractLocalImports); the fuel is bounded by the text length. -/
def scanImportsAux : Nat → Str → List Str
  | 0, _ => []
  | _, [] => []
  | Nat.succ fuel, c :: t =>
    match matchImportStmtAt (c :: t) with
    | some (cap, rest) => cap :: scanImportsAux fuel rest
    | none => scanImportsAux fuel t

/-- extractLocalImports of page-analyzer.ts: every captured specifier that is
non-empty and starts with ./, ../ or @/. -/
def extractLocalImports (content : Str) : List Str :=
  (scanImportsAux content.length content).filter fun imp =>
    !imp.isEmpty &&
      (pfx ("./".toList) imp || pfx ("../".toList) imp || pfx ("@/".toList) imp)

/-- Count of non-overlapping occurrences of a literal (the `match(...).length`
counters of detectIndicators); fuel bounded by the text length. -/
def countSubAux (lit : Str) : Nat → Str → Nat
  | 0, _ => 0
  | _, [] => 0
  | Nat.succ fuel, c :: t =>
    match dropPfx lit (c :: t) with
    | some rest => 1 + countSubAux lit fuel rest
    | none => countSubAux lit fuel t

/-- The `<script` counter of detectIndicators. -/
def countScriptTags (html : Str) : Nat :=
  countSubAux ("<script".toList) html.length html

/-- One alternative of `rel=<quote>(?:preload|modulepreload)<quote>`. -/
def tryRelAlt (alt : Str) (r : Str) : Option Str :=
  match dropPfx alt r with
  | some (q2 :: rest) => if isQuoteChar q2 then some rest else none
  | _ => none

/-- The preload-rel regex of detectIndicators, at one position. -/
def matchPreloadRelAt (s : Str) : Option Str :=
  match dropPfx ("rel=".toList) s with
  | some (q :: r) =>
    if isQuoteChar q then
      match tryRelAlt ("preload".toList) r with
      | some rest => some rest
      | none => tryRelAlt ("modulepreload".toList) r
    else none
  | _ => none

/-- The preload-rel counter of detectIndicators. -/
def countPreloadRelsAux : Nat → Str → Nat
  | 0, _ => 0
  | _, [] => 0
  | Nat.succ fuel, c :: t =>
    match matchPreloadRelAt (c :: t) with
    | some rest => 1 + countPreloadRelsAux fuel rest
    | none => countPreloadRelsAux fuel t

/-- The preload-rel counter of detectIndicators, applied to a whole text. -/
def countPreloadRels (html : Str) : Nat :=
  countPreloadRelsAux html.length html

/-- PageClassification of types.ts. -/
inductive PageClassification where
  | PURE_STATIC
  | ROUTING_ONLY
  | INTERACTIVE
deriving DecidableEq

/-- PageIndicators of types.ts. -/
structure PageIndicators where
  hasEventHandlers : Bool
  usesReactHooks : Bool
  hasClientComponents : Bool
  hasClientSideRouting : Bool
  scriptCount : Nat
  preloadCount : Nat
deriving DecidableEq

/-- detectIndicators of page-analyzer.ts. -/
def detectIndicators (srcContent htmlContent : Str) : PageIndicators :=
  { hasEventHandlers := detectEventHandlers srcContent
    usesReactHooks := detectReactHooks srcContent
    hasClientComponents := detectClientComponents srcContent
    hasClientSideRouting := detectClientSideRouting srcContent
    scriptCount := countScriptTags htmlContent
    preloadCount := countPreloadRels htmlContent }

/-- classifyPage of page-analyzer.ts (lines 194-212). -/
def classifyPage (indicators : PageIndicators) (hasClientCode : Bool) : PageClassification :=
  if hasClientCode || indicators.hasEventHandlers || indicators.usesReactHooks ||
      indicators.hasClientComponents then
    PageClassification.INTERACTIVE
  else if indicators.hasClientSideRouting then
    PageClassification.ROUTING_ONLY
  else
    PageClassification.PURE_STATIC

/-- Split a path on the slash character. -/
def splitOnSlash : Str → List Str
  | [] => [[]]
  | c :: t =>
    let r := splitOnSlash t
    if c = '/' then [] :: r
    else
      match r with
      | seg :: rest => (c :: seg) :: rest
      | [] => [[c]]

/-- Path-segment normalisation of node:path join (dot and dot-dot handling);
`acc` is the reversed stack of kept segments. -/
def normSegsAux (isAbs : Bool) : List Str → List Str → List Str
  | acc, [] => acc.reverse
  | acc, seg :: rest =>
    if seg = [] ∨ seg = (".".toList) then normSegsAux isAbs acc rest
    else if seg = ("..".toList) then
      match acc with
      | [] => if isAbs then normSegsAux isAbs [] rest else normSegsAux isAbs [seg] rest
      | top :: acc2 =>
        if top = ("..".toList) then normSegsAux isAbs (seg :: acc) rest
        else normSegsAux isAbs acc2 rest
    else normSegsAux isAbs (seg :: acc) rest

/-- Join segments with slashes. -/
def intercalateSlash : List Str → Str
  | [] => []
  | [s] => s
  | s :: rest => s ++ '/' :: intercalateSlash rest

/-- Model of node:path join for two components. -/
def joinPath (a b : Str) : Str :=
  let isAbs := pfx ("/".toList) a
  let segs := normSegsAux isAbs [] (splitOnSlash a ++ splitOnSlash b)
  if isAbs then '/' :: intercalateSlash segs
  else if segs.isEmpty then ".".toList
  else intercalateSlash segs

/-- Model of node:path dirname. -/
def dirname (p : Str) : Str :=
  let init := (splitOnSlash p).dropLast
  if init.isEmpty then ".".toList
  else if init.all List.isEmpty then "/".toList
  else intercalateSlash init

/-- File-system model: association list of readable files (resolved path and
content) plus paths that exist but fail to read (covers EACCES, EISDIR and
similar read failures that existsSync does not rule out). -/
structure FS where
  files : List (Str × Str)
  unreadable : List Str

/-- First-match association-list lookup. -/
def lookupPath : List (Str × Str) → Str → Option Str
  | [], _ => none
  | e :: rest, p => if e.1 = p then some e.2 else lookupPath rest p

/-- Model of readFile: succeeds exactly on readable files. -/
def readF (fs : FS) (p : Str) : Option Str := lookupPath fs.files p

/-- Model of existsSync: true for readable and unreadable-but-present paths. -/
def existsSync (fs : FS) (p : Str) : Bool :=
  (lookupPath fs.files p).isSome || decide (p ∈ fs.unreadable)

/-- FILE_EXTENSIONS of constants.ts, in priority order. -/
def FILE_EXTENSIONS : List Str := ([".tsx", ".ts", ".jsx", ".js"]).map String.toList

/-- resolveImportPath of page-analyzer.ts (lines 127-152): alias or relative
base, then the literal path with each extension, then an index file in the
path-as-directory with each extension; first existing candidate wins. -/
def resolveImportPath (fs : FS) (baseDir importPath sourceRootDir : Str) : Option Str :=
  let jsxPath :=
    if pfx ("@/".toList) importPath then joinPath sourceRootDir (importPath.drop 2)
    else joinPath baseDir importPath
  match FILE_EXTENSIONS.find? (fun ext => existsSync fs (jsxPath ++ ext)) with
  | some ext => some (jsxPath ++ ext)
  | none =>
    match FILE_EXTENSIONS.find?
        (fun ext => existsSync fs (joinPath jsxPath ("index".toList ++ ext))) with
    | some ext => some (joinPath jsxPath ("index".toList ++ ext))
    | none => none

/-- The per-import body of the crawl loop (page-analyzer.ts lines 82-102):
resolved, existing, readable imports of one module, with their contents.
Unresolved or unreadable imports are skipped and contribute nothing. -/
def succs (fs : FS) (sourceRootDir : Str) (jsxPath jsxContent : Str) : List (Str × Str) :=
  (extractLocalImports jsxContent).filterMap fun importPath =>
    match resolveImportPath fs (dirname jsxPath) importPath sourceRootDir with
    | none => none
    | some resolvedPath =>
      if existsSync fs resolvedPath then
        match readF fs resolvedPath with
        | some importContent => some (resolvedPath, importContent)
        | none => none
      else none

/-- checkClientCodeRecursive of page-analyzer.ts (lines 62-105): the visited
set is threaded as a list (insertion = inspection); the loop with its early
return is the fold. The fuel argument only bounds the recursion depth; the
wrapper passes enough fuel for it never to run out (each nested call adds a
distinct file to the visited set). -/
def checkClientCodeRecursive (fs : FS) (sourceRootDir : Str) :
    Nat → Str → Str → List Str → Bool × List Str
  | 0, _, _, visited => (false, visited)
  | Nat.succ fuel, jsxPath, jsxContent, visited =>
    if jsxPath ∈ visited then (false, visited)
    else
      let visited1 := jsxPath :: visited
      if clientDetected jsxContent then (true, visited1)
      else
        (succs fs sourceRootDir jsxPath jsxContent).foldl
          (fun acc qc =>
            if acc.1 then acc
            else checkClientCodeRecursive fs sourceRootDir fuel qc.1 qc.2 acc.2)
          (false, visited1)

/-- hasAnyClientCode of page-analyzer.ts (lines 53-60). -/
def hasAnyClientCode (fs : FS) (sourceRootDir : Str) (jsxPath jsxContent : Str) : Bool :=
  (checkClientCodeRecursive fs sourceRootDir (fs.files.length + 2) jsxPath jsxContent []).1

/-- Dependency-closure reachability: the modules reachable from the entry by
recursively following resolved, readable local imports (the glossary closure
of the spec). -/
inductive Reach (fs : FS) (sr : Str) : Str → Str → Str → Str → Prop where
  | refl (p c : Str) : Reach fs sr p c p c
  | step (p c q cq r cr : Str) :
      (q, cq) ∈ succs fs sr p c → Reach fs sr q cq r cr → Reach fs sr p c r cr

/-- The classification computed by analyzeGeneratedPage (page-analyzer.ts
lines 26-51): indicators of the entry pair plus the closure-wide crawl. -/
def analyzeClassification (fs : FS) (sourceRootDir : Str)
    (srcPath srcContent htmlContent : Str) : PageClassification :=
  classifyPage (detectIndicators srcContent htmlContent)
    (hasAnyClientCode fs sourceRootDir srcPath srcContent)

/-- Count of readable-file keys not yet visited (termination measure of the
crawl). -/
def remKeys (fs : FS) (v : List Str) : Nat :=
  ((fs.files.map Prod.fst).filter fun k => !decide (k ∈ v)).length

/-- DOM node of the cheerio document model (text node or element). An HTML
document is a list of nodes; cheerio load/serialize is modelled by operating
on the parsed tree directly. -/
inductive DomNode where
  | text (s : Str)
  | elem (tag : String) (attrs : List (String × Str)) (children : List DomNode)

mutual

/-- Structural boolean equality of nodes. -/
def beqDomNode : DomNode → DomNode → Bool
  | .text s, .text t => s == t
  | .elem tag1 attrs1 ch1, .elem tag2 attrs2 ch2 =>
    tag1 == tag2 && attrs1 == attrs2 && beqDomNodes ch1 ch2
  | _, _ => false

/-- Structural boolean equality of node lists. -/
def beqDomNodes : List DomNode → List DomNode → Bool
  | [], [] => true
  | a :: as, b :: bs => beqDomNode a b && beqDomNodes as bs
  | _, _ => false

end

/-- The last element of a list is the given node. -/
def lastIs (script : DomNode) : List DomNode → Bool
  | [] => false
  | [n] => beqDomNode n script
  | _ :: rest => lastIs script rest

/-- First attribute with the given name (cheerio attr). -/
def getAttr : List (String × Str) → String → Option Str
  | [], _ => none
  | a :: rest, n => if a.1 = n then some a.2 else getAttr rest n

/-- Attribute value with the `?? ""` default of the source. -/
def attrOr (attrs : List (String × Str)) (n : String) : Str := (getAttr attrs n).getD []

/-- Attribute presence (the `[src]` selector). -/
def hasAttr (attrs : List (String × Str)) (n : String) : Bool := (getAttr attrs n).isSome

/-- Attribute-equals selector such as `[rel="preload"]`. -/
def attrIs (attrs : List (String × Str)) (n : String) (v : Str) : Bool :=
  decide (getAttr attrs n = some v)

/-- Render an attribute list. -/
def renderAttrs : List (String × Str) → Str
  | [] => []
  | a :: rest => ' ' :: (a.1.toList ++ '=' :: '"' :: (a.2 ++ '"' :: renderAttrs rest))

mutual

/-- Serialisation of one node (the document side of `$.html()`). -/
def renderNode : DomNode → Str
  | .text s => s
  | .elem tag attrs children =>
    '<' :: (tag.toList ++ renderAttrs attrs ++ '>' ::
      (renderNodes children ++ '<' :: '/' :: (tag.toList ++ ['>'])))

/-- Serialisation of a node list (also `$el.html()` on the children). -/
def renderNodes : List DomNode → Str
  | [] => []
  | n :: rest => renderNode n ++ renderNodes rest

end

/-- shouldPreserveInlineScript of script-stripper.ts (lines 94-99). -/
def shouldPreserveInlineScript (type : Str) : Bool :=
  if type.isEmpty then false
  else if type = ("application/ld+json".toList) then true
  else if type = ("text/javascript".toList) ∨ type = ("module".toList) then false
  else true

/-- The `script[src]` pass predicate: external script whose src matches a
framework pattern. -/
def isRemovableSrcScript (n : DomNode) : Bool :=
  match n with
  | .elem tag attrs _ =>
    tag == "script" && hasAttr attrs "src" && isNextJsScript (attrOr attrs "src")
  | _ => false

/-- The `script:not([src])` pass predicate: inline script, not of a preserved
type, whose serialised content matches a framework pattern. -/
def isRemovableInlineScript (n : DomNode) : Bool :=
  match n with
  | .elem tag attrs children =>
    tag == "script" && !hasAttr attrs "src" &&
      !shouldPreserveInlineScript (attrOr attrs "type") &&
      isNextJsScript (renderNodes children)
  | _ => false

/-- The `link[rel="preload"][as="script"], link[rel="modulepreload"]`
pass predicate. -/
def isRemovablePreloadLink (n : DomNode) : Bool :=
  match n with
  | .elem tag attrs _ =>
    tag == "link" &&
      (attrIs attrs "rel" ("preload".toList) && attrIs attrs "as" ("script".toList) ||
        attrIs attrs "rel" ("modulepreload".toList)) &&
      isNextJsScript (attrOr attrs "href")
  | _ => false

/-- The `link[rel="prefetch"][as="script"]` pass predicate. -/
def isRemovablePrefetchLink (n : DomNode) : Bool :=
  match n with
  | .elem tag attrs _ =>
    tag == "link" && attrIs attrs "rel" ("prefetch".toList) &&
      attrIs attrs "as" ("script".toList) &&
      isNextJsScript (attrOr attrs "href")
  | _ => false

/-- One select-and-remove pass: delete every node matching `p` (whole subtree)
and count the removals; non-matching elements keep their processed children. -/
def removeCountNodes (p : DomNode → Bool) : List DomNode → List DomNode × Nat
  | [] => ([], 0)
  | n :: rest =>
    let r := removeCountNodes p rest
    if p n then (r.1, r.2 + 1)
    else
      match n with
      | .text s => (.text s :: r.1, r.2)
      | .elem tag attrs children =>
        let rc := removeCountNodes p children
        (.elem tag attrs rc.1 :: r.1, r.2 + rc.2)

/-- StripResult of script-stripper.ts, with the document kept as a tree. -/
structure StripResult where
  html : List DomNode
  scriptsRemoved : Nat
  preloadsRemoved : Nat

/-- stripAllScripts of script-stripper.ts (lines 32-92): the four passes in
source order; script counts from passes 1-2, preload counts from passes 3-4. -/
def stripAllScripts (doc : List DomNode) : StripResult :=
  let pass1 := removeCountNodes isRemovableSrcScript doc
  let pass2 := removeCountNodes isRemovableInlineScript pass1.1
  let pass3 := removeCountNodes isRemovablePreloadLink pass2.1
  let pass4 := removeCountNodes isRemovablePrefetchLink pass3.1
  { html := pass4.1
    scriptsRemoved := pass1.2 + pass2.2
    preloadsRemoved := pass3.2 + pass4.2 }

/-- processHtmlFile of script-stripper.ts (lines 15-30), on the parsed
document of the page. -/
def processHtmlFile (classification : PageClassification) (doc : List DomNode) : StripResult :=
  if classification = PageClassification.INTERACTIVE then
    { html := doc, scriptsRemoved := 0, preloadsRemoved := 0 }
  else stripAllScripts doc

/-- `$("body").append(...)`: append the node as last child of every body
element. -/
def appendToBodyNodes (script : DomNode) : List DomNode → List DomNode
  | [] => []
  | .text s :: rest => .text s :: appendToBodyNodes script rest
  | .elem tag attrs children :: rest =>
    let children2 := appendToBodyNodes script children
    .elem tag attrs (if tag == "body" then children2 ++ [script] else children2) ::
      appendToBodyNodes script rest

/-- The injected `<script>` holding the navigation-helper payload. -/
def spaScriptNode (payload : Str) : DomNode := .elem "script" [] [.text payload]

/-- JS truthiness of the optional string parameter. -/
def strTruthy : Option Str → Bool
  | none => false
  | some s => !s.isEmpty

/-- Result record of getProcessedHtml. -/
structure ProcessedHtml where
  html : List DomNode
  scriptsRemoved : Nat
  preloadsRemoved : Nat
  routerInjected : Bool

/-- getProcessedHtml of script-stripper.ts (lines 106-131). -/
def getProcessedHtml (classification : PageClassification) (doc : List DomNode)
    (spaRouterScript : Option Str) : ProcessedHtml :=
  let result := processHtmlFile classification doc
  if classification = PageClassification.ROUTING_ONLY ∧ strTruthy spaRouterScript = true then
    { html := appendToBodyNodes (spaScriptNode (spaRouterScript.getD [])) result.html
      scriptsRemoved := result.scriptsRemoved
      preloadsRemoved := result.preloadsRemoved
      routerInjected := true }
  else
    { html := result.html
      scriptsRemoved := result.scriptsRemoved
      preloadsRemoved := result.preloadsRemoved
      routerInjected := false }

/-- All children are text nodes. -/
def textOnly : List DomNode → Bool
  | [] => true
  | .text _ :: rest => textOnly rest
  | .elem _ _ _ :: _ => false

/-- Parse-realistic document: script and link elements contain only text
(the HTML parser never nests elements inside them). -/
def wellFormedNodes : List DomNode → Bool
  | [] => true
  | .text _ :: rest => wellFormedNodes rest
  | .elem tag _ children :: rest =>
    (if tag == "script" || tag == "link" then textOnly children else true) &&
      wellFormedNodes children && wellFormedNodes rest

/-- Some body element occurs in the tree. -/
def hasBodyNodes : List DomNode → Bool
  | [] => false
  | .text _ :: rest => hasBodyNodes rest
  | .elem tag _ children :: rest =>
    tag == "body" || hasBodyNodes children || hasBodyNodes rest

/-- All element nodes of the tree, in document order. -/
def collectNodes : List DomNode → List DomNode
  | [] => []
  | .text _ :: rest => collectNodes rest
  | .elem tag attrs children :: rest =>
    .elem tag attrs children :: (collectNodes children ++ collectNodes rest)

/-- Inline structured-data script (type application/ld+json, no src). -/
def isLdJsonInlineScript (n : DomNode) : Bool :=
  match n with
  | .elem tag attrs _ =>
    tag == "script" && !hasAttr attrs "src" &&
      attrIs attrs "type" ("application/ld+json".toList)
  | _ => false

/-- The ld+json inline scripts of a document, in order. -/
def collectLdJson (l : List DomNode) : List DomNode :=
  (collectNodes l).filter isLdJsonInlineScript

/-- Every body element of the tree ends with the given node as last child. -/
def bodiesEndWith (script : DomNode) : List DomNode → Bool
  | [] => true
  | .text _ :: rest => bodiesEndWith script rest
  | .elem tag _ children :: rest =>
    (if tag == "body" then lastIs script children else true) &&
      bodiesEndWith script children && bodiesEndWith script rest

/-- C4 claim-level predicate: a script element (external or inline) whose URL
or inline content matches a framework pattern, or a preload, modulepreload or
prefetch link whose URL matches one. -/
def matchesFrameworkClaim (n : DomNode) : Bool :=
  match n with
  | .elem tag attrs children =>
    (tag == "script" &&
      (isNextJsScript (attrOr attrs "src") || isNextJsScript (renderNodes children))) ||
    (tag == "link" &&
      (attrIs attrs "rel" ("preload".toList) || attrIs attrs "rel" ("modulepreload".toList) ||
        attrIs attrs "rel" ("prefetch".toList)) &&
      isNextJsScript (attrOr attrs "href"))
  | _ => false

/-- No node of the document satisfies the C4 claim-level predicate. -/
def claimCleanDoc (l : List DomNode) : Bool :=
  (collectNodes l).all fun n => !matchesFrameworkClaim n

/-- A node one of the four stripping passes targets. -/
def residualRemovable (n : DomNode) : Bool :=
  isRemovableSrcScript n || isRemovableInlineScript n ||
    isRemovablePreloadLink n || isRemovablePrefetchLink n

/-- No node of the document is a target of any stripping pass. -/
def residualCleanDoc (l : List DomNode) : Bool :=
  (collectNodes l).all fun n => !residualRemovable n

/-- Suffix test. -/
def endsWith (suffix s : Str) : Bool := pfx suffix.reverse s.reverse

/-- The `replace(/\.html$/, "")` of findSourceForHtml. -/
def stripHtmlExt (s : Str) : Str :=
  if endsWith (".html".toList) s then s.take (s.length - 5) else s

/-- findSourceForHtml of output-generator.ts (lines 95-123): the empty second
component models the empty-string sourceJsx sentinel. -/
def findSourceForHtml (fs : FS) (htmlFile htmlDir routesDir : Str) : Str × Str :=
  let route := if htmlFile = ("index.html".toList) then [] else stripHtmlExt htmlFile
  let base := if route.isEmpty then "index".toList else route
  let sourceCandidates :=
    [joinPath routesDir (base ++ ".tsx".toList),
     joinPath routesDir (base ++ ".jsx".toList),
     joinPath (joinPath routesDir route) ("page.tsx".toList),
     joinPath (joinPath routesDir route) ("page.jsx".toList)]
  match sourceCandidates.find? (fun cand => existsSync fs cand) with
  | some cand => (joinPath htmlDir htmlFile, cand)
  | none => (joinPath htmlDir htmlFile, [])

/-- findGeneratedPages of output-generator.ts (lines 73-93), with the glob
result supplied as the list of HTML files. -/
def findGeneratedPages (fs : FS) (htmlFiles : List Str) (htmlDir routesDir : Str) :
    List (Str × Str) :=
  (htmlFiles.map fun h => findSourceForHtml fs h htmlDir routesDir).filter
    fun page => !page.2.isEmpty

/-- The four candidate entry sources of a page, as the claim lists them:
route.tsx, route.jsx, route/page.tsx, route/page.jsx under the routes
directory (with the index fallback for the root route). -/
def specCandidates (htmlFile routesDir : Str) : List Str :=
  let route := if htmlFile = ("index.html".toList) then [] else stripHtmlExt htmlFile
  let base := if route.isEmpty then "index".toList else route
  [joinPath routesDir (base ++ ".tsx".toList),
   joinPath routesDir (base ++ ".jsx".toList),
   joinPath (joinPath routesDir route) ("page.tsx".toList),
   joinPath (joinPath routesDir route) ("page.jsx".toList)]

/-- Claim-level specification of page discovery: a page with no existing
candidate is excluded; otherwise it is paired with the first existing
candidate. -/
def specPages (fs : FS) (htmlFiles : List Str) (htmlDir routesDir : Str) :
    List (Str × Str) :=
  htmlFiles.filterMap fun h =>
    match (specCandidates h routesDir).find? (fun cand => existsSync fs cand) with
    | some cand => some (joinPath htmlDir h, cand)
    | none => none

theorem pfx_iff (l s : Str) : pfx l s = true ↔ ∃ t, s = l ++ t := by
  induction l generalizing s with
  | nil => simp [pfx]
  | cons a as ih =>
    cases s with
    | nil => simp [pfx]
    | cons b bs =>
      by_cases hab : a = b
      · subst hab
        rw [show pfx (a :: as) (a :: bs) = pfx as bs from by simp [pfx], ih]
        constructor
        · rintro ⟨t, ht⟩; exact ⟨t, by simp [ht]⟩
        · rintro ⟨t, ht⟩
          simp only [List.cons_append, List.cons.injEq] at ht
          exact ⟨t, ht.2⟩
      · rw [show pfx (a :: as) (b :: bs) = false from by simp [pfx, hab]]
        constructor
        · intro h; exact absurd h (by simp)
        · rintro ⟨t, ht⟩
          simp only [List.cons_append, List.cons.injEq] at ht
          exact (hab ht.1.symm).elim

theorem dropPfx_eq_some_iff (l s t : Str) : dropPfx l s = some t ↔ s = l ++ t := by
  induction l generalizing s with
  | nil => simp [dropPfx]
  | cons a as ih =>
    cases s with
    | nil => simp [dropPfx]
    | cons b bs =>
      by_cases hab : a = b
      · subst hab
        rw [show dropPfx (a :: as) (a :: bs) = dropPfx as bs from by simp [dropPfx], ih]
        constructor
        · intro ht; simp [ht]
        · intro ht
          simp only [List.cons_append, List.cons.injEq] at ht
          exact ht.2
      · rw [show dropPfx (a :: as) (b :: bs) = none from by simp [dropPfx, hab]]
        constructor
        · intro h; exact absurd h (by simp)
        · intro ht
          simp only [List.cons_append, List.cons.injEq] at ht
          exact (hab ht.1.symm).elim

theorem lastO_append (prev : Option Char) (u v : Str) :
    lastO prev (u ++ v) = lastO (lastO prev u) v := by
  induction u generalizing prev with
  | nil => rfl
  | cons c rest ih => simpa [lastO] using ih (some c)

theorem scanStr_eq_true_iff (f : Option Char → Str → Bool) (prev : Option Char) (s : Str) :
    scanStr f prev s = true ↔ ∃ u v, s = u ++ v ∧ f (lastO prev u) v = true := by
  induction s generalizing prev with
  | nil =>
    simp only [scanStr]
    constructor
    · intro h; exact ⟨[], [], rfl, h⟩
    · rintro ⟨u, v, huv, h⟩
      rcases List.append_eq_nil.mp huv.symm with ⟨hu, hv⟩
      subst hu; subst hv; exact h
  | cons c rest ih =>
    simp only [scanStr, Bool.or_eq_true]
    constructor
    · rintro (h | h)
      · exact ⟨[], c :: rest, rfl, h⟩
      · rcases (ih (some c)).mp h with ⟨u, v, huv, hf⟩
        exact ⟨c :: u, v, by simp [huv], by simpa [lastO] using hf⟩
    · rintro ⟨u, v, huv, hf⟩
      cases u with
      | nil =>
        left
        have hv : v = c :: rest := by simpa using huv.symm
        simpa [lastO, hv] using hf
      | cons d u' =>
        right
        have hd : d = c := by
          have := huv
          simp only [List.cons_append, List.cons.injEq] at this
          exact this.1.symm
        subst hd
        have hrest : rest = u' ++ v := by
          have := huv
          simp only [List.cons_append, List.cons.injEq] at this
          exact this.2
        exact (ih (some d)).mpr ⟨u', v, hrest, by simpa [lastO] using hf⟩

theorem allPos_eq_true_iff (f : Option Char → Str → Bool) (prev : Option Char) (s : Str) :
    allPos f prev s = true ↔ ∀ u v, s = u ++ v → f (lastO prev u) v = true := by
  induction s generalizing prev with
  | nil =>
    simp only [allPos]
    constructor
    · intro h u v huv
      rcases List.append_eq_nil.mp huv.symm with ⟨hu, hv⟩
      subst hu; subst hv; exact h
    · intro h; exact h [] [] rfl
  | cons c rest ih =>
    simp only [allPos, Bool.and_eq_true]
    constructor
    · rintro ⟨h0, hrec⟩ u v huv
      cases u with
      | nil =>
        have hv : v = c :: rest := by simpa using huv.symm
        simpa [lastO, hv] using h0
      | cons d u' =>
        have hd : d = c := by
          have := huv
          simp only [List.cons_append, List.cons.injEq] at this
          exact this.1.symm
        subst hd
        have hrest : rest = u' ++ v := by
          have := huv
          simp only [List.cons_append, List.cons.injEq] at this
          exact this.2
        simpa [lastO] using (ih (some d)).mp hrec u' v hrest
    · intro h
      refine ⟨h [] (c :: rest) rfl, (ih (some c)).mpr ?_⟩
      intro u v huv
      simpa [lastO] using h (c :: u) v (by simp [huv])

theorem containsSub_iff (lit s : Str) :
    containsSub lit s = true ↔ ∃ x y, s = x ++ lit ++ y := by
  rw [containsSub, scanStr_eq_true_iff]
  constructor
  · rintro ⟨u, v, huv, hf⟩
    rcases (pfx_iff lit v).mp hf with ⟨t, ht⟩
    exact ⟨u, t, by simp [huv, ht]⟩
  · rintro ⟨x, y, hxy⟩
    exact ⟨x, lit ++ y, by simp [hxy], (pfx_iff lit (lit ++ y)).mpr ⟨y, rfl⟩⟩

theorem litOnlyAfter_spec (c : Char) (lit s : Str) :
    litOnlyAfter c lit s = true ↔
      ∀ x y, s = x ++ lit ++ y → lastO none x = some c := by
  rw [litOnlyAfter, allPos_eq_true_iff]
  constructor
  · intro h x y hxy
    have := h x (lit ++ y) (by simp [hxy])
    rcases Bool.or_eq_true _ _ |>.mp this with h1 | h2
    · exfalso
      have : pfx lit (lit ++ y) = true := (pfx_iff _ _).mpr ⟨y, rfl⟩
      simp [this] at h1
    · exact of_decide_eq_true h2
  · intro h u v huv
    by_cases hp : pfx lit v = true
    · rcases (pfx_iff lit v).mp hp with ⟨t, ht⟩
      have := h u t (by simp [huv, ht])
      simp [this]
    · simp [Bool.not_eq_true] at hp
      simp [hp]

theorem filterLenMono {α : Type} (p q : α → Bool) (h : ∀ a, p a = true → q a = true) :
    ∀ l : List α, (l.filter p).length ≤ (l.filter q).length := by
  intro l
  induction l with
  | nil => simp
  | cons a rest ih =>
    by_cases hp : p a = true
    · simp [List.filter_cons, hp, h a hp]
      have := ih
      omega
    · simp only [Bool.not_eq_true] at hp
      by_cases hq : q a = true
      · simp [List.filter_cons, hp, hq]
        have := ih
        omega
      · simp only [Bool.not_eq_true] at hq
        simp [List.filter_cons, hp, hq, ih]

theorem filterLenLt {α : Type} (p q : α → Bool) (a : α) (h : ∀ x, p x = true → q x = true)
    (hpa : p a = false) (hqa : q a = true) :
    ∀ l : List α, a ∈ l → (l.filter p).length < (l.filter q).length := by
  intro l
  induction l with
  | nil => intro hm; cases hm
  | cons b rest ih =>
    intro hm
    rcases List.mem_cons.mp hm with hb | hb
    · subst hb
      simp [List.filter_cons, hpa, hqa]
      exact Nat.lt_succ_of_le (filterLenMono p q h rest)
    · by_cases hp : p b = true
      · simp [List.filter_cons, hp, h b hp]
        have := ih hb
        omega
      · simp only [Bool.not_eq_true] at hp
        by_cases hq : q b = true
        · simp [List.filter_cons, hp, hq]
          exact Nat.lt_succ_of_lt (ih hb)
        · simp only [Bool.not_eq_true] at hq
          simp [List.filter_cons, hp, hq]
          exact ih hb

theorem remKeys_mono (fs : FS) {v v2 : List Str} (h : ∀ k, k ∈ v → k ∈ v2) :
    remKeys fs v2 ≤ remKeys fs v := by
  refine filterLenMono _ _ ?_ _
  intro a ha
  simp only [Bool.not_eq_true', decide_eq_false_iff_not] at ha ⊢
  intro hav
  exact ha (h a hav)

theorem remKeys_cons_lt (fs : FS) {p : Str} {v : List Str}
    (hk : p ∈ fs.files.map Prod.fst) (hv : p ∉ v) :
    remKeys fs (p :: v) < remKeys fs v := by
  refine filterLenLt _ _ p ?_ ?_ ?_ _ hk
  · intro x hx
    simp only [Bool.not_eq_true', decide_eq_false_iff_not, List.mem_cons] at hx ⊢
    intro hxv
    exact hx (Or.inr hxv)
  · simp
  · simpa using hv

theorem lookupPath_mem_keys : ∀ (l : List (Str × Str)) (p c : Str),
    lookupPath l p = some c → p ∈ l.map Prod.fst := by
  intro l
  induction l with
  | nil => intro p c h; cases h
  | cons e rest ih =>
    intro p c h
    by_cases he : e.1 = p
    · simp [he]
    · simp only [lookupPath, if_neg he] at h
      simp [ih p c h]

theorem readF_mem_keys {fs : FS} {p c : Str} (h : readF fs p = some c) :
    p ∈ fs.files.map Prod.fst :=
  lookupPath_mem_keys fs.files p c h

theorem succs_readF {fs : FS} {sr p c q cq : Str} (h : (q, cq) ∈ succs fs sr p c) :
    readF fs q = some cq := by
  rcases List.mem_filterMap.mp h with ⟨imp, _, hf⟩
  rcases hres : resolveImportPath fs (dirname p) imp sr with _ | r
  · simp [hres] at hf
  · rw [hres] at hf
    by_cases hex : existsSync fs r = true
    · simp only [hex, if_true] at hf
      rcases hread : readF fs r with _ | ic
      · simp [hread] at hf
      · simp only [hread] at hf
        simp only [Option.some.injEq, Prod.mk.injEq] at hf
        rcases hf with ⟨hq, hcq⟩
        rw [← hq, ← hcq]
        exact hread
    · simp only [Bool.not_eq_true] at hex
      simp [hex] at hf

theorem crawl_loop_true (fs : FS) (sr : Str) (fuel : Nat) :
    ∀ (l : List (Str × Str)) (w : List Str),
      l.foldl (fun acc qc => if acc.1 then acc
        else checkClientCodeRecursive fs sr fuel qc.1 qc.2 acc.2) (true, w) = (true, w) := by
  intro l
  induction l with
  | nil => intro w; rfl
  | cons qc rest ih => intro w; simpa using ih w

theorem checkRec_extends (fs : FS) (sr : Str) :
    ∀ (fuel : Nat) (p c : Str) (v : List Str),
      ∃ w, (checkClientCodeRecursive fs sr fuel p c v).2 = w ++ v := by
  intro fuel
  induction fuel with
  | zero => intro p c v; exact ⟨[], rfl⟩
  | succ fuel ih =>
    have loop : ∀ (l : List (Str × Str)) (b : Bool) (v : List Str),
        ∃ w, (l.foldl (fun acc qc => if acc.1 then acc
          else checkClientCodeRecursive fs sr fuel qc.1 qc.2 acc.2) (b, v)).2 = w ++ v := by
      intro l
      induction l with
      | nil => intro b v; exact ⟨[], rfl⟩
      | cons qc rest ihl =>
        intro b v
        cases b with
        | true =>
          rw [crawl_loop_true]
          exact ⟨[], rfl⟩
        | false =>
          simp only [List.foldl_cons, if_neg (by simp : ¬((false, v).1 = true))]
          rcases ih qc.1 qc.2 v with ⟨w1, hw1⟩
          rcases ihl (checkClientCodeRecursive fs sr fuel qc.1 qc.2 v).1
              (checkClientCodeRecursive fs sr fuel qc.1 qc.2 v).2 with ⟨w2, hw2⟩
          refine ⟨w2 ++ w1, ?_⟩
          rw [List.append_assoc, ← hw1]
          simpa using hw2
    intro p c v
    by_cases hv : p ∈ v
    · simp only [checkClientCodeRecursive, if_pos hv]
      exact ⟨[], rfl⟩
    · by_cases hm : clientDetected c = true
      · simp only [checkClientCodeRecursive, if_neg hv, hm, if_true]
        exact ⟨[p], rfl⟩
      · simp only [Bool.not_eq_true] at hm
        simp only [checkClientCodeRecursive, if_neg hv, hm, Bool.false_eq_true, if_false]
        rcases loop (succs fs sr p c) false (p :: v) with ⟨w, hw⟩
        exact ⟨w ++ [p], by simpa using hw⟩

theorem checkRec_visited_subset (fs : FS) (sr : Str) (fuel : Nat) (p c : Str) (v : List Str) :
    ∀ x ∈ v, x ∈ (checkClientCodeRecursive fs sr fuel p c v).2 := by
  intro x hx
  rcases checkRec_extends fs sr fuel p c v with ⟨w, hw⟩
  rw [hw]
  exact List.mem_append_right w hx

theorem checkRec_nodup (fs : FS) (sr : Str) :
    ∀ (fuel : Nat) (p c : Str) (v : List Str),
      v.Nodup → ((checkClientCodeRecursive fs sr fuel p c v).2).Nodup := by
  intro fuel
  induction fuel with
  | zero => intro p c v h; exact h
  | succ fuel ih =>
    have loop : ∀ (l : List (Str × Str)) (b : Bool) (v : List Str),
        v.Nodup → ((l.foldl (fun acc qc => if acc.1 then acc
          else checkClientCodeRecursive fs sr fuel qc.1 qc.2 acc.2) (b, v)).2).Nodup := by
      intro l
      induction l with
      | nil => intro b v h; exact h
      | cons qc rest ihl =>
        intro b v h
        cases b with
        | true => rw [crawl_loop_true]; exact h
        | false =>
          simp only [List.foldl_cons, if_neg (by simp : ¬((false, v).1 = true))]
          have h1 := ih qc.1 qc.2 v h
          have := ihl (checkClientCodeRecursive fs sr fuel qc.1 qc.2 v).1
              (checkClientCodeRecursive fs sr fuel qc.1 qc.2 v).2 h1
          simpa using this
    intro p c v h
    by_cases hv : p ∈ v
    · simpa [checkClientCodeRecursive, if_pos hv] using h
    · have h1 : (p :: v).Nodup := List.nodup_cons.mpr ⟨hv, h⟩
      by_cases hm : clientDetected c = true
      · simpa [checkClientCodeRecursive, if_neg hv, hm] using h1
      · simp only [Bool.not_eq_true] at hm
        simp only [checkClientCodeRecursive, if_neg hv, hm, Bool.false_eq_true, if_false]
        exact loop (succs fs sr p c) false (p :: v) h1

theorem checkRec_sound (fs : FS) (sr : Str) :
    ∀ (fuel : Nat) (p c : Str) (v : List Str),
      (checkClientCodeRecursive fs sr fuel p c v).1 = true →
      ∃ q cq, Reach fs sr p c q cq ∧ clientDetected cq = true := by
  intro fuel
  induction fuel with
  | zero => intro p c v h; cases h
  | succ fuel ih =>
    have loop : ∀ (l : List (Str × Str)) (b : Bool) (v : List Str),
        (l.foldl (fun acc qc => if acc.1 then acc
          else checkClientCodeRecursive fs sr fuel qc.1 qc.2 acc.2) (b, v)).1 = true →
        b = true ∨ ∃ qc ∈ l, ∃ r cr, Reach fs sr qc.1 qc.2 r cr ∧ clientDetected cr = true := by
      intro l
      induction l with
      | nil => intro b v h; exact Or.inl h
      | cons qc rest ihl =>
        intro b v h
        cases b with
        | true => exact Or.inl rfl
        | false =>
          simp only [List.foldl_cons, if_neg (by simp : ¬((false, v).1 = true))] at h
          by_cases h1 : (checkClientCodeRecursive fs sr fuel qc.1 qc.2 v).1 = true
          · rcases ih qc.1 qc.2 v h1 with ⟨r, cr, hr, hm⟩
            exact Or.inr ⟨qc, List.mem_cons_self qc rest, r, cr, hr, hm⟩
          · simp only [Bool.not_eq_true] at h1
            have hfold := h
            rw [show (checkClientCodeRecursive fs sr fuel qc.1 qc.2 v) =
                ((checkClientCodeRecursive fs sr fuel qc.1 qc.2 v).1,
                 (checkClientCodeRecursive fs sr fuel qc.1 qc.2 v).2) from rfl, h1] at hfold
            rcases ihl false (checkClientCodeRecursive fs sr fuel qc.1 qc.2 v).2 hfold with
              hc | ⟨qc2, hqc2, r, cr, hr, hm⟩
            · cases hc
            · exact Or.inr ⟨qc2, List.mem_cons_of_mem qc hqc2, r, cr, hr, hm⟩
    intro p c v h
    by_cases hv : p ∈ v
    · simp [checkClientCodeRecursive, if_pos hv] at h
    · by_cases hm : clientDetected c = true
      · exact ⟨p, c, Reach.refl p c, hm⟩
      · simp only [Bool.not_eq_true] at hm
        simp only [checkClientCodeRecursive, if_neg hv, hm, Bool.false_eq_true, if_false] at h
        rcases loop (succs fs sr p c) false (p :: v) h with hc | ⟨qc, hqc, r, cr, hr, hmm⟩
        · cases hc
        · exact ⟨r, cr, Reach.step p c qc.1 qc.2 r cr (by simpa using hqc) hr, hmm⟩

theorem checkRec_false_inv (fs : FS) (sr : Str) :
    ∀ (fuel : Nat) (p c : Str) (v : List Str),
      remKeys fs v + 1 ≤ fuel →
      (readF fs p = some c ∨ p ∈ v) →
      (checkClientCodeRecursive fs sr fuel p c v).1 = false →
      p ∈ (checkClientCodeRecursive fs sr fuel p c v).2 ∧
      ∀ x ∈ (checkClientCodeRecursive fs sr fuel p c v).2,
        x ∈ v ∨ ∃ cx, readF fs x = some cx ∧ clientDetected cx = false ∧
          ∀ e ∈ succs fs sr x cx, e.1 ∈ (checkClientCodeRecursive fs sr fuel p c v).2 := by
  intro fuel
  induction fuel with
  | zero =>
    intro p c v hfuel hp hres
    exact absurd hfuel (by omega)
  | succ fuel ih =>
    have loop : ∀ (l : List (Str × Str)) (u W : List Str),
        (∀ qc ∈ l, readF fs qc.1 = some qc.2) →
        remKeys fs u + 1 ≤ fuel →
        l.foldl (fun acc qc => if acc.1 then acc
          else checkClientCodeRecursive fs sr fuel qc.1 qc.2 acc.2) (false, u) = (false, W) →
        (∀ x ∈ u, x ∈ W) ∧ (∀ qc ∈ l, qc.1 ∈ W) ∧
        (∀ x ∈ W, x ∈ u ∨ ∃ cx, readF fs x = some cx ∧ clientDetected cx = false ∧
          ∀ e ∈ succs fs sr x cx, e.1 ∈ W) := by
      intro l
      induction l with
      | nil =>
        intro u W _ _ hfold
        simp only [List.foldl_nil, Prod.mk.injEq] at hfold
        rcases hfold with ⟨_, hW⟩
        subst hW
        exact ⟨fun x hx => hx, by simp, fun x hx => Or.inl hx⟩
      | cons qc rest ihl =>
        intro u W hl hfuel hfold
        simp only [List.foldl_cons, if_neg (by simp : ¬((false, u).1 = true))] at hfold
        rcases hacc : checkClientCodeRecursive fs sr fuel qc.1 qc.2 u with ⟨b1, u1⟩
        rw [hacc] at hfold
        cases b1 with
        | true =>
          rw [crawl_loop_true] at hfold
          simp at hfold
        | false =>
          have hsub : ∀ x ∈ u, x ∈ u1 := by
            intro x hx
            have := checkRec_visited_subset fs sr fuel qc.1 qc.2 u x hx
            rw [hacc] at this
            exact this
          have hnode := ih qc.1 qc.2 u hfuel
            (Or.inl (hl qc (List.mem_cons_self qc rest))) (by rw [hacc])
          rw [hacc] at hnode
          have hfuel1 : remKeys fs u1 + 1 ≤ fuel := by
            have := remKeys_mono fs hsub
            omega
          rcases ihl u1 W (fun qc2 h2 => hl qc2 (List.mem_cons_of_mem qc h2)) hfuel1 hfold with
            ⟨hi1, hi2, hi3⟩
          refine ⟨fun x hx => hi1 x (hsub x hx), ?_, ?_⟩
          · intro qc2 h2
            rcases List.mem_cons.mp h2 with h2 | h2
            · subst h2; exact hi1 qc2.1 hnode.1
            · exact hi2 qc2 h2
          · intro x hx
            rcases hi3 x hx with hx1 | hgood
            · rcases hnode.2 x hx1 with hx2 | ⟨cx, hr, hm2, hs⟩
              · exact Or.inl hx2
              · exact Or.inr ⟨cx, hr, hm2, fun e he => hi1 e.1 (hs e he)⟩
            · exact Or.inr hgood
    intro p c v hfuel hp hres
    by_cases hv : p ∈ v
    · simp only [checkClientCodeRecursive, if_pos hv]
      exact ⟨hv, fun x hx => Or.inl hx⟩
    · have hpr : readF fs p = some c := by
        rcases hp with hp | hp
        · exact hp
        · exact absurd hp hv
      by_cases hm : clientDetected c = true
      · simp only [checkClientCodeRecursive, if_neg hv, hm, if_true] at hres
        cases hres
      · simp only [Bool.not_eq_true] at hm
        simp only [checkClientCodeRecursive, if_neg hv, hm, Bool.false_eq_true, if_false]
          at hres ⊢
        rcases hfold : (succs fs sr p c).foldl (fun acc qc => if acc.1 then acc
            else checkClientCodeRecursive fs sr fuel qc.1 qc.2 acc.2) (false, p :: v) with
          ⟨bf, W⟩
        rw [hfold] at hres ⊢
        simp only at hres
        subst hres
        have hkey : p ∈ fs.files.map Prod.fst := readF_mem_keys hpr
        have hfuel1 : remKeys fs (p :: v) + 1 ≤ fuel := by
          have := remKeys_cons_lt fs hkey hv
          omega
        rcases loop (succs fs sr p c) (p :: v) W (fun qc h2 => succs_readF h2) hfuel1 hfold with
          ⟨hi1, hi2, hi3⟩
        refine ⟨hi1 p (List.mem_cons_self p v), ?_⟩
        intro x hx
        rcases hi3 x hx with hx1 | hgood
        · rcases List.mem_cons.mp hx1 with hx2 | hx2
          · subst hx2
            exact Or.inr ⟨c, hpr, hm, fun e he => hi2 e he⟩
          · exact Or.inl hx2
        · exact Or.inr hgood

/-- The crawl returns true exactly when a marked module is reachable. -/
theorem hasAnyClientCode_iff (fs : FS) (sr p c : Str) (hc : readF fs p = some c) :
    hasAnyClientCode fs sr p c = true ↔
      ∃ q cq, Reach fs sr p c q cq ∧ clientDetected cq = true := by
  constructor
  · intro h
    exact checkRec_sound fs sr (fs.files.length + 2) p c [] h
  · rintro ⟨q, cq, hreach, hmq⟩
    by_contra hfalse
    simp only [hasAnyClientCode, Bool.not_eq_true] at hfalse
    have hfuel : remKeys fs [] + 1 ≤ fs.files.length + 2 := by
      have h1 : remKeys fs [] ≤ (fs.files.map Prod.fst).length :=
        List.length_filter_le _ _
      have h2 : (fs.files.map Prod.fst).length = fs.files.length := List.length_map _ _
      omega
    rcases checkRec_false_inv fs sr (fs.files.length + 2) p c [] hfuel (Or.inl hc) hfalse with
      ⟨hmem, hinv2⟩
    set W := (checkClientCodeRecursive fs sr (fs.files.length + 2) p c []).2 with hWdef
    have hinv : ∀ x ∈ W, ∃ cx, readF fs x = some cx ∧ clientDetected cx = false ∧
        ∀ e ∈ succs fs sr x cx, e.1 ∈ W := by
      intro x hx
      rcases hinv2 x hx with h0 | h0
      · cases h0
      · exact h0
    have key : ∀ x cx r cr, Reach fs sr x cx r cr → x ∈ W → readF fs x = some cx →
        r ∈ W ∧ readF fs r = some cr ∧ clientDetected cr = false := by
      intro x cx r cr hr0
      induction hr0 with
      | refl p2 c2 =>
        intro hmem2 hread2
        rcases hinv p2 hmem2 with ⟨cx2, hr2, hm2, _⟩
        have hcc : cx2 = c2 := Option.some.inj (hr2.symm.trans hread2)
        rw [hcc] at hm2
        exact ⟨hmem2, hread2, hm2⟩
      | step p2 c2 q2 cq2 r2 cr2 hmemsucc hrest ihr =>
        intro hmem2 hread2
        rcases hinv p2 hmem2 with ⟨cx2, hr2, _, hs2⟩
        have hcc : cx2 = c2 := Option.some.inj (hr2.symm.trans hread2)
        rw [hcc] at hs2
        exact ihr (hs2 (q2, cq2) hmemsucc) (succs_readF hmemsucc)
    rcases key p c q cq hreach hmem hc with ⟨_, _, hunm⟩
    rw [hunm] at hmq
    cases hmq

mutual

theorem beqDomNode_refl : ∀ a : DomNode, beqDomNode a a = true
  | .text s => by simp [beqDomNode]
  | .elem tag attrs cs => by
    simp only [beqDomNode, Bool.and_eq_true]
    exact ⟨⟨by simp, by simp⟩, beqDomNodes_refl cs⟩

theorem beqDomNodes_refl : ∀ l : List DomNode, beqDomNodes l l = true
  | [] => by simp [beqDomNodes]
  | a :: rest => by
    simp only [beqDomNodes, Bool.and_eq_true]
    exact ⟨beqDomNode_refl a, beqDomNodes_refl rest⟩

end

theorem lastIs_append (s : DomNode) : ∀ l : List DomNode, lastIs s (l ++ [s]) = true := by
  intro l
  induction l with
  | nil => simpa [lastIs] using beqDomNode_refl s
  | cons a rest ih =>
    cases rest with
    | nil => simpa [lastIs] using ih
    | cons b rest2 => simpa [lastIs] using ih

theorem bodiesEndWith_append (s : DomNode) (l1 l2 : List DomNode) :
    bodiesEndWith s (l1 ++ l2) = (bodiesEndWith s l1 && bodiesEndWith s l2) := by
  induction l1 with
  | nil => simp [bodiesEndWith]
  | cons a rest ih =>
    cases a with
    | text t => simp [bodiesEndWith, ih]
    | elem tag attrs cs =>
      simp [bodiesEndWith, ih]
      by_cases hb : (tag == "body") = true <;> simp [hb, Bool.and_assoc]

theorem hasBodyNodes_append_aux (l1 l2 : List DomNode) :
    hasBodyNodes (l1 ++ l2) = true ↔ hasBodyNodes l1 = true ∨ hasBodyNodes l2 = true := by
  induction l1 with
  | nil => simp [hasBodyNodes]
  | cons a rest ih =>
    cases a with
    | text t => simpa [hasBodyNodes] using ih
    | elem tag attrs cs =>
      simp only [List.cons_append, hasBodyNodes, Bool.or_eq_true, ih]
      tauto

theorem bodiesEndWith_single_spa (payload : Str) :
    bodiesEndWith (spaScriptNode payload) [spaScriptNode payload] = true := by
  simp [spaScriptNode, bodiesEndWith,
    show ("script" == "body") = false from by decide]

theorem append_bodiesEnd (payload : Str) :
    ∀ l : List DomNode,
      bodiesEndWith (spaScriptNode payload) (appendToBodyNodes (spaScriptNode payload) l) = true
  | [] => by simp [appendToBodyNodes, bodiesEndWith]
  | .text t :: rest => by
    simpa [appendToBodyNodes, bodiesEndWith] using append_bodiesEnd payload rest
  | .elem tag attrs cs :: rest => by
    have ihc := append_bodiesEnd payload cs
    have ih := append_bodiesEnd payload rest
    by_cases hb : (tag == "body") = true
    · simp only [appendToBodyNodes, hb, if_true, bodiesEndWith, Bool.and_eq_true]
      refine ⟨⟨by simp [hb, lastIs_append], ?_⟩, ih⟩
      rw [bodiesEndWith_append, ihc, Bool.true_and]
      exact bodiesEndWith_single_spa payload
    · simp only [appendToBodyNodes, hb, if_false, bodiesEndWith, Bool.and_eq_true]
      exact ⟨⟨by simp [hb], ihc⟩, ih⟩

theorem append_hasBody (s : DomNode) :
    ∀ l : List DomNode, hasBodyNodes l = true → hasBodyNodes (appendToBodyNodes s l) = true
  | [] => by intro h; simp [hasBodyNodes] at h
  | .text t :: rest => by
    intro h
    simp only [hasBodyNodes] at h
    simpa [appendToBodyNodes, hasBodyNodes] using append_hasBody s rest h
  | .elem tag attrs cs :: rest => by
    intro h
    have ihc := append_hasBody s cs
    have ih := append_hasBody s rest
    simp only [hasBodyNodes, Bool.or_eq_true] at h
    simp only [appendToBodyNodes, hasBodyNodes, Bool.or_eq_true]
    rcases h with (h | h) | h
    · exact Or.inl (Or.inl h)
    · refine Or.inl (Or.inr ?_)
      by_cases hb : (tag == "body") = true
      · simp only [hb, if_true]
        rw [show (hasBodyNodes (appendToBodyNodes s cs ++ [s]) = true) =
            (hasBodyNodes (appendToBodyNodes s cs ++ [s]) = true) from rfl]
        exact (hasBodyNodes_append_aux _ _).mpr (Or.inl (ihc h))
      · simpa [hb] using ihc h
    · exact Or.inr (ih h)

theorem collect_textOnly : ∀ l : List DomNode, textOnly l = true → collectNodes l = []
  | [] => by intro _; simp [collectNodes]
  | .text s :: rest => by
    intro h
    simp only [textOnly] at h
    simpa [collectNodes] using collect_textOnly rest h
  | .elem _ _ _ :: _ => by intro h; simp [textOnly] at h

theorem textOnly_hasBody_false : ∀ l : List DomNode, textOnly l = true → hasBodyNodes l = false
  | [] => by intro _; simp [hasBodyNodes]
  | .text s :: rest => by
    intro h
    simp only [textOnly] at h
    simpa [hasBodyNodes] using textOnly_hasBody_false rest h
  | .elem _ _ _ :: _ => by intro h; simp [textOnly] at h

theorem removeCount_textOnly (p : DomNode → Bool) (hp : ∀ s, p (DomNode.text s) = false) :
    ∀ l : List DomNode, textOnly l = true → removeCountNodes p l = (l, 0)
  | [] => by intro _; simp [removeCountNodes]
  | .text s :: rest => by
    intro h
    simp only [textOnly] at h
    have ih := removeCount_textOnly p hp rest h
    simp [removeCountNodes, hp s, ih]
  | .elem _ _ _ :: _ => by intro h; simp [textOnly] at h

theorem removeCount_wf (p : DomNode → Bool) (hp : ∀ s, p (DomNode.text s) = false) :
    ∀ l : List DomNode, wellFormedNodes l = true →
      wellFormedNodes (removeCountNodes p l).1 = true
  | [] => by intro _; simp [removeCountNodes, wellFormedNodes]
  | .text s :: rest => by
    intro h
    simp only [wellFormedNodes] at h
    have ih := removeCount_wf p hp rest h
    simp [removeCountNodes, hp s, wellFormedNodes, ih]
  | .elem tag attrs cs :: rest => by
    intro h
    simp only [wellFormedNodes, Bool.and_eq_true] at h
    obtain ⟨⟨hif, hcs⟩, hrest⟩ := h
    have ihr := removeCount_wf p hp rest hrest
    by_cases hpn : p (DomNode.elem tag attrs cs) = true
    · simpa [removeCountNodes, hpn] using ihr
    · simp only [Bool.not_eq_true] at hpn
      have ihc := removeCount_wf p hp cs hcs
      simp only [removeCountNodes, hpn, Bool.false_eq_true, if_false]
      simp only [wellFormedNodes, Bool.and_eq_true]
      refine ⟨⟨?_, ihc⟩, ihr⟩
      by_cases hsl : (tag == "script" || tag == "link") = true
      · have hto : textOnly cs = true := by simpa [hsl] using hif
        rw [removeCount_textOnly p hp cs hto]
        simpa [hsl] using hif
      · simp [hsl]

theorem removeCount_noMatch (p : DomNode → Bool) (hp : ∀ s, p (DomNode.text s) = false)
    (htag : ∀ tag attrs cs, tag ≠ "script" → tag ≠ "link" →
      p (DomNode.elem tag attrs cs) = false) :
    ∀ l : List DomNode, wellFormedNodes l = true →
      ∀ n ∈ collectNodes (removeCountNodes p l).1, p n = false
  | [] => by intro _ n hn; simp [removeCountNodes, collectNodes] at hn
  | .text s :: rest => by
    intro h n hn
    simp only [wellFormedNodes] at h
    simp only [removeCountNodes, hp s, Bool.false_eq_true, if_false, collectNodes] at hn
    exact removeCount_noMatch p hp htag rest h n hn
  | .elem tag attrs cs :: rest => by
    intro h n hn
    simp only [wellFormedNodes, Bool.and_eq_true] at h
    obtain ⟨⟨hif, hcs⟩, hrest⟩ := h
    by_cases hpn : p (DomNode.elem tag attrs cs) = true
    · simp only [removeCountNodes, hpn, if_true] at hn
      exact removeCount_noMatch p hp htag rest hrest n hn
    · simp only [Bool.not_eq_true] at hpn
      simp only [removeCountNodes, hpn, Bool.false_eq_true, if_false, collectNodes,
        List.mem_cons, List.mem_append] at hn
      rcases hn with hn | hn | hn
      · subst hn
        by_cases hsl : (tag == "script" || tag == "link") = true
        · have hto : textOnly cs = true := by simpa [hsl] using hif
          rw [removeCount_textOnly p hp cs hto]
          exact hpn
        · simp only [Bool.or_eq_true, not_or, Bool.not_eq_true] at hsl
          have h1 : tag ≠ "script" := by
            intro hq; rw [hq] at hsl; simp at hsl
          have h2 : tag ≠ "link" := by
            intro hq; rw [hq] at hsl; simp at hsl
          exact htag tag attrs _ h1 h2
      · exact removeCount_noMatch p hp htag cs hcs n hn
      · exact removeCount_noMatch p hp htag rest hrest n hn

theorem removeCount_preserveClean (p q : DomNode → Bool) (hp : ∀ s, p (DomNode.text s) = false)
    (hqtag : ∀ tag attrs cs, tag ≠ "script" → tag ≠ "link" →
      q (DomNode.elem tag attrs cs) = false) :
    ∀ l : List DomNode, wellFormedNodes l = true →
      (∀ n ∈ collectNodes l, q n = false) →
      ∀ n ∈ collectNodes (removeCountNodes p l).1, q n = false
  | [] => by intro _ _ n hn; simp [removeCountNodes, collectNodes] at hn
  | .text s :: rest => by
    intro h hq n hn
    simp only [wellFormedNodes] at h
    simp only [collectNodes] at hq
    simp only [removeCountNodes, hp s, Bool.false_eq_true, if_false, collectNodes] at hn
    exact removeCount_preserveClean p q hp hqtag rest h hq n hn
  | .elem tag attrs cs :: rest => by
    intro h hq n hn
    simp only [wellFormedNodes, Bool.and_eq_true] at h
    obtain ⟨⟨hif, hcs⟩, hrest⟩ := h
    have hqcs : ∀ n ∈ collectNodes cs, q n = false := by
      intro m hm
      exact hq m (by simp [collectNodes, List.mem_cons, List.mem_append, hm])
    have hqrest : ∀ n ∈ collectNodes rest, q n = false := by
      intro m hm
      exact hq m (by simp [collectNodes, List.mem_cons, List.mem_append, hm])
    by_cases hpn : p (DomNode.elem tag attrs cs) = true
    · simp only [removeCountNodes, hpn, if_true] at hn
      exact removeCount_preserveClean p q hp hqtag rest hrest hqrest n hn
    · simp only [Bool.not_eq_true] at hpn
      simp only [removeCountNodes, hpn, Bool.false_eq_true, if_false, collectNodes,
        List.mem_cons, List.mem_append] at hn
      rcases hn with hn | hn | hn
      · subst hn
        by_cases hsl : (tag == "script" || tag == "link") = true
        · have hto : textOnly cs = true := by simpa [hsl] using hif
          rw [removeCount_textOnly p hp cs hto]
          exact hq _ (by simp [collectNodes])
        · simp only [Bool.or_eq_true, not_or, Bool.not_eq_true] at hsl
          have h1 : tag ≠ "script" := by
            intro he; rw [he] at hsl; simp at hsl
          have h2 : tag ≠ "link" := by
            intro he; rw [he] at hsl; simp at hsl
          exact hqtag tag attrs _ h1 h2
      · exact removeCount_preserveClean p q hp hqtag cs hcs hqcs n hn
      · exact removeCount_preserveClean p q hp hqtag rest hrest hqrest n hn

theorem removeCount_ldjson (p : DomNode → Bool) (hp : ∀ s, p (DomNode.text s) = false)
    (hld : ∀ n, isLdJsonInlineScript n = true → p n = false)
    (hrem : ∀ tag attrs cs, p (DomNode.elem tag attrs cs) = true →
      tag = "script" ∨ tag = "link") :
    ∀ l : List DomNode, wellFormedNodes l = true →
      (collectNodes (removeCountNodes p l).1).filter isLdJsonInlineScript =
        (collectNodes l).filter isLdJsonInlineScript
  | [] => by intro _; simp [removeCountNodes, collectNodes]
  | .text s :: rest => by
    intro h
    simp only [wellFormedNodes] at h
    simp only [removeCountNodes, hp s, Bool.false_eq_true, if_false, collectNodes]
    exact removeCount_ldjson p hp hld hrem rest h
  | .elem tag attrs cs :: rest => by
    intro h
    simp only [wellFormedNodes, Bool.and_eq_true] at h
    obtain ⟨⟨hif, hcs⟩, hrest⟩ := h
    by_cases hpn : p (DomNode.elem tag attrs cs) = true
    · have hnl : isLdJsonInlineScript (DomNode.elem tag attrs cs) = false := by
        cases hisld : isLdJsonInlineScript (DomNode.elem tag attrs cs) with
        | true => rw [hld _ hisld] at hpn; cases hpn
        | false => rfl
      have hsl := hrem tag attrs cs hpn
      have hto : textOnly cs = true := by
        rcases hsl with hsl | hsl <;> subst hsl <;> simpa using hif
      simp only [removeCountNodes, hpn, if_true, collectNodes, List.filter_cons,
        List.filter_append, hnl, collect_textOnly cs hto]
      simp [removeCount_ldjson p hp hld hrem rest hrest]
    · simp only [Bool.not_eq_true] at hpn
      simp only [removeCountNodes, hpn, Bool.false_eq_true, if_false, collectNodes,
        List.filter_cons, List.filter_append]
      by_cases hsl : (tag == "script" || tag == "link") = true
      · have hto : textOnly cs = true := by simpa [hsl] using hif
        rw [removeCount_textOnly p hp cs hto]
        simp [removeCount_ldjson p hp hld hrem rest hrest]
      · have hns : tag ≠ "script" := by
          intro he; rw [he] at hsl; simp at hsl
        have hhead : isLdJsonInlineScript (DomNode.elem tag attrs
            (removeCountNodes p cs).1) = false := by
          simp [isLdJsonInlineScript, beq_eq_false_iff_ne.mpr hns]
        have hhead2 : isLdJsonInlineScript (DomNode.elem tag attrs cs) = false := by
          simp [isLdJsonInlineScript, beq_eq_false_iff_ne.mpr hns]
        simp only [hhead, hhead2, Bool.false_eq_true, if_false]
        rw [removeCount_ldjson p hp hld hrem cs hcs,
          removeCount_ldjson p hp hld hrem rest hrest]

theorem removeCount_hasBody (p : DomNode → Bool) (hp : ∀ s, p (DomNode.text s) = false)
    (hrem : ∀ tag attrs cs, p (DomNode.elem tag attrs cs) = true →
      tag = "script" ∨ tag = "link") :
    ∀ l : List DomNode, wellFormedNodes l = true → hasBodyNodes l = true →
      hasBodyNodes (removeCountNodes p l).1 = true
  | [] => by intro _ h; simp [hasBodyNodes] at h
  | .text s :: rest => by
    intro h hb
    simp only [wellFormedNodes] at h
    simp only [hasBodyNodes] at hb
    simp only [removeCountNodes, hp s, Bool.false_eq_true, if_false, hasBodyNodes]
    exact removeCount_hasBody p hp hrem rest h hb
  | .elem tag attrs cs :: rest => by
    intro h hb
    simp only [wellFormedNodes, Bool.and_eq_true] at h
    obtain ⟨⟨hif, hcs⟩, hrest⟩ := h
    simp only [hasBodyNodes, Bool.or_eq_true] at hb
    by_cases hpn : p (DomNode.elem tag attrs cs) = true
    · have hsl := hrem tag attrs cs hpn
      have hto : textOnly cs = true := by
        rcases hsl with hsl | hsl <;> subst hsl <;> simpa using hif
      have hnb : (tag == "body") = false := by
        rcases hsl with hsl | hsl <;> subst hsl <;> decide
      have hncs : hasBodyNodes cs = false := textOnly_hasBody_false cs hto
      simp only [removeCountNodes, hpn, if_true]
      rcases hb with (hb | hb) | hb
      · rw [hnb] at hb; cases hb
      · rw [hncs] at hb; cases hb
      · exact removeCount_hasBody p hp hrem rest hrest hb
    · simp only [Bool.not_eq_true] at hpn
      simp only [removeCountNodes, hpn, Bool.false_eq_true, if_false, hasBodyNodes,
        Bool.or_eq_true]
      rcases hb with (hb | hb) | hb
      · exact Or.inl (Or.inl hb)
      · refine Or.inl (Or.inr ?_)
        by_cases hsl : (tag == "script" || tag == "link") = true
        · have hto : textOnly cs = true := by simpa [hsl] using hif
          rw [textOnly_hasBody_false cs hto] at hb
          cases hb
        · exact removeCount_hasBody p hp hrem cs hcs hb
      · exact Or.inr (removeCount_hasBody p hp hrem rest hrest hb)

theorem srcScript_text (s : Str) : isRemovableSrcScript (DomNode.text s) = false := rfl

theorem inlineScript_text (s : Str) : isRemovableInlineScript (DomNode.text s) = false := rfl

theorem preloadLink_text (s : Str) : isRemovablePreloadLink (DomNode.text s) = false := rfl

theorem prefetchLink_text (s : Str) : isRemovablePrefetchLink (DomNode.text s) = false := rfl

theorem srcScript_ne_script (tag : String) (attrs : List (String × Str)) (cs : List DomNode)
    (h1 : tag ≠ "script") :
    isRemovableSrcScript (DomNode.elem tag attrs cs) = false := by
  simp [isRemovableSrcScript, beq_eq_false_iff_ne.mpr h1]

theorem inlineScript_ne_script (tag : String) (attrs : List (String × Str)) (cs : List DomNode)
    (h1 : tag ≠ "script") :
    isRemovableInlineScript (DomNode.elem tag attrs cs) = false := by
  simp [isRemovableInlineScript, beq_eq_false_iff_ne.mpr h1]

theorem preloadLink_ne_link (tag : String) (attrs : List (String × Str)) (cs : List DomNode)
    (h2 : tag ≠ "link") :
    isRemovablePreloadLink (DomNode.elem tag attrs cs) = false := by
  simp [isRemovablePreloadLink, beq_eq_false_iff_ne.mpr h2]

theorem prefetchLink_ne_link (tag : String) (attrs : List (String × Str)) (cs : List DomNode)
    (h2 : tag ≠ "link") :
    isRemovablePrefetchLink (DomNode.elem tag attrs cs) = false := by
  simp [isRemovablePrefetchLink, beq_eq_false_iff_ne.mpr h2]

theorem srcScript_tag_false (tag : String) (attrs : List (String × Str)) (cs : List DomNode)
    (h1 : tag ≠ "script") (_h2 : tag ≠ "link") :
    isRemovableSrcScript (DomNode.elem tag attrs cs) = false :=
  srcScript_ne_script tag attrs cs h1

theorem inlineScript_tag_false (tag : String) (attrs : List (String × Str)) (cs : List DomNode)
    (h1 : tag ≠ "script") (_h2 : tag ≠ "link") :
    isRemovableInlineScript (DomNode.elem tag attrs cs) = false :=
  inlineScript_ne_script tag attrs cs h1

theorem preloadLink_tag_false (tag : String) (attrs : List (String × Str)) (cs : List DomNode)
    (_h1 : tag ≠ "script") (h2 : tag ≠ "link") :
    isRemovablePreloadLink (DomNode.elem tag attrs cs) = false :=
  preloadLink_ne_link tag attrs cs h2

theorem prefetchLink_tag_false (tag : String) (attrs : List (String × Str)) (cs : List DomNode)
    (_h1 : tag ≠ "script") (h2 : tag ≠ "link") :
    isRemovablePrefetchLink (DomNode.elem tag attrs cs) = false :=
  prefetchLink_ne_link tag attrs cs h2

theorem srcScript_rem (tag : String) (attrs : List (String × Str)) (cs : List DomNode)
    (h : isRemovableSrcScript (DomNode.elem tag attrs cs) = true) :
    tag = "script" ∨ tag = "link" := by
  simp only [isRemovableSrcScript, Bool.and_eq_true] at h
  exact Or.inl (eq_of_beq h.1.1)

theorem inlineScript_rem (tag : String) (attrs : List (String × Str)) (cs : List DomNode)
    (h : isRemovableInlineScript (DomNode.elem tag attrs cs) = true) :
    tag = "script" ∨ tag = "link" := by
  simp only [isRemovableInlineScript, Bool.and_eq_true] at h
  exact Or.inl (eq_of_beq h.1.1.1)

theorem preloadLink_rem (tag : String) (attrs : List (String × Str)) (cs : List DomNode)
    (h : isRemovablePreloadLink (DomNode.elem tag attrs cs) = true) :
    tag = "script" ∨ tag = "link" := by
  simp only [isRemovablePreloadLink, Bool.and_eq_true] at h
  exact Or.inr (eq_of_beq h.1.1)

theorem prefetchLink_rem (tag : String) (attrs : List (String × Str)) (cs : List DomNode)
    (h : isRemovablePrefetchLink (DomNode.elem tag attrs cs) = true) :
    tag = "script" ∨ tag = "link" := by
  simp only [isRemovablePrefetchLink, Bool.and_eq_true] at h
  exact Or.inr (eq_of_beq h.1.1.1)

theorem ldjson_not_srcScript (n : DomNode) (h : isLdJsonInlineScript n = true) :
    isRemovableSrcScript n = false := by
  cases n with
  | text s => rfl
  | elem tag attrs cs =>
    simp only [isLdJsonInlineScript, Bool.and_eq_true] at h
    have hsrc : hasAttr attrs "src" = false := by
      have := h.1.2
      simpa using this
    simp [isRemovableSrcScript, hsrc]

theorem ldjson_not_inlineScript (n : DomNode) (h : isLdJsonInlineScript n = true) :
    isRemovableInlineScript n = false := by
  cases n with
  | text s => rfl
  | elem tag attrs cs =>
    simp only [isLdJsonInlineScript, Bool.and_eq_true, attrIs, decide_eq_true_eq] at h
    have htype : attrOr attrs "type" = ("application/ld+json".toList) := by
      simp [attrOr, h.2]
    have hpres : shouldPreserveInlineScript (attrOr attrs "type") = true := by
      rw [htype]
      decide
    simp [isRemovableInlineScript, hpres]

theorem ldjson_not_preloadLink (n : DomNode) (h : isLdJsonInlineScript n = true) :
    isRemovablePreloadLink n = false := by
  cases n with
  | text s => rfl
  | elem tag attrs cs =>
    simp only [isLdJsonInlineScript, Bool.and_eq_true] at h
    have htag : tag = "script" := eq_of_beq h.1.1
    subst htag
    exact preloadLink_ne_link _ attrs cs (by decide)

theorem ldjson_not_prefetchLink (n : DomNode) (h : isLdJsonInlineScript n = true) :
    isRemovablePrefetchLink n = false := by
  cases n with
  | text s => rfl
  | elem tag attrs cs =>
    simp only [isLdJsonInlineScript, Bool.and_eq_true] at h
    have htag : tag = "script" := eq_of_beq h.1.1
    subst htag
    exact prefetchLink_ne_link _ attrs cs (by decide)

theorem strip_wf (doc : List DomNode) (h : wellFormedNodes doc = true) :
    wellFormedNodes (stripAllScripts doc).html = true := by
  simp only [stripAllScripts]
  exact removeCount_wf _ prefetchLink_text _
    (removeCount_wf _ preloadLink_text _
      (removeCount_wf _ inlineScript_text _
        (removeCount_wf _ srcScript_text _ h)))

theorem strip_residualClean (doc : List DomNode) (h : wellFormedNodes doc = true) :
    residualCleanDoc (stripAllScripts doc).html = true := by
  have wf1 := removeCount_wf _ srcScript_text doc h
  have wf2 := removeCount_wf _ inlineScript_text _ wf1
  have wf3 := removeCount_wf _ preloadLink_text _ wf2
  have A1 := removeCount_noMatch _ srcScript_text srcScript_tag_false doc h
  have A2 := removeCount_noMatch _ inlineScript_text inlineScript_tag_false _ wf1
  have B2 := removeCount_preserveClean _ _ inlineScript_text srcScript_tag_false _ wf1 A1
  have A3 := removeCount_noMatch _ preloadLink_text preloadLink_tag_false _ wf2
  have B3 := removeCount_preserveClean _ _ preloadLink_text srcScript_tag_false _ wf2 B2
  have C3 := removeCount_preserveClean _ _ preloadLink_text inlineScript_tag_false _ wf2 A2
  have A4 := removeCount_noMatch _ prefetchLink_text prefetchLink_tag_false _ wf3
  have B4 := removeCount_preserveClean _ _ prefetchLink_text srcScript_tag_false _ wf3 B3
  have C4h := removeCount_preserveClean _ _ prefetchLink_text inlineScript_tag_false _ wf3 C3
  have D4 := removeCount_preserveClean _ _ prefetchLink_text preloadLink_tag_false _ wf3 A3
  simp only [residualCleanDoc, stripAllScripts, List.all_eq_true]
  intro n hn
  simp only [residualRemovable, Bool.not_eq_eq_eq_not, Bool.not_true, Bool.or_eq_false_iff]
  exact ⟨⟨⟨B4 n hn, C4h n hn⟩, D4 n hn⟩, A4 n hn⟩

theorem strip_ldjson (doc : List DomNode) (h : wellFormedNodes doc = true) :
    collectLdJson (stripAllScripts doc).html = collectLdJson doc := by
  have wf1 := removeCount_wf _ srcScript_text doc h
  have wf2 := removeCount_wf _ inlineScript_text _ wf1
  have wf3 := removeCount_wf _ preloadLink_text _ wf2
  simp only [collectLdJson, stripAllScripts]
  rw [removeCount_ldjson _ prefetchLink_text ldjson_not_prefetchLink prefetchLink_rem _ wf3,
    removeCount_ldjson _ preloadLink_text ldjson_not_preloadLink preloadLink_rem _ wf2,
    removeCount_ldjson _ inlineScript_text ldjson_not_inlineScript inlineScript_rem _ wf1,
    removeCount_ldjson _ srcScript_text ldjson_not_srcScript srcScript_rem _ h]

theorem strip_hasBody (doc : List DomNode) (h : wellFormedNodes doc = true)
    (hb : hasBodyNodes doc = true) : hasBodyNodes (stripAllScripts doc).html = true := by
  have wf1 := removeCount_wf _ srcScript_text doc h
  have wf2 := removeCount_wf _ inlineScript_text _ wf1
  have wf3 := removeCount_wf _ preloadLink_text _ wf2
  simp only [stripAllScripts]
  exact removeCount_hasBody _ prefetchLink_text prefetchLink_rem _ wf3
    (removeCount_hasBody _ preloadLink_text preloadLink_rem _ wf2
      (removeCount_hasBody _ inlineScript_text inlineScript_rem _ wf1
        (removeCount_hasBody _ srcScript_text srcScript_rem _ h hb)))

theorem reach_closed (fs : FS) (sr : Str) (S : Str → Str → Prop)
    (hS : ∀ x cx, S x cx → ∀ e ∈ succs fs sr x cx, S e.1 e.2) :
    ∀ p c q cq, Reach fs sr p c q cq → S p c → S q cq := by
  intro p c q cq hr
  induction hr with
  | refl p2 c2 => intro hp; exact hp
  | step p2 c2 q2 cq2 r cr hmem hrest ihr =>
    intro hp
    exact ihr (hS p2 c2 hp (q2, cq2) hmem)

theorem find?_congr {α : Type} (p q : α → Bool) (h : ∀ a, p a = q a) :
    ∀ l : List α, l.find? p = l.find? q := by
  intro l
  induction l with
  | nil => rfl
  | cons a rest ih =>
    by_cases hq : q a = true
    · rw [List.find?_cons_of_pos _ (by rw [h a]; exact hq), List.find?_cons_of_pos _ hq]
    · simp only [Bool.not_eq_true] at hq
      rw [List.find?_cons_of_neg _ (by simp [h a, hq]), List.find?_cons_of_neg _ (by simp [hq]),
        ih]

theorem resolveImportPath_congr (fs fs' : FS) (hex : ∀ q, existsSync fs' q = existsSync fs q)
    (baseDir importPath sourceRootDir : Str) :
    resolveImportPath fs' baseDir importPath sourceRootDir =
      resolveImportPath fs baseDir importPath sourceRootDir := by
  simp only [resolveImportPath, hex]

theorem succs_transfer (fs fs' : FS) (sr : Str) (m cm' : Str)
    (hex : ∀ q, existsSync fs' q = existsSync fs q)
    (hread : ∀ x, x ≠ m → readF fs' x = readF fs x)
    (hm' : readF fs' m = some cm') :
    ∀ p c q cq, (q, cq) ∈ succs fs sr p c →
      (q, if q = m then cm' else cq) ∈ succs fs' sr p c := by
  intro p c q cq h
  rcases List.mem_filterMap.mp h with ⟨imp, himp, hf⟩
  refine List.mem_filterMap.mpr ⟨imp, himp, ?_⟩
  rw [resolveImportPath_congr fs fs' hex (dirname p) imp sr]
  rcases hres : resolveImportPath fs (dirname p) imp sr with _ | r
  · rw [hres] at hf; cases hf
  · rw [hres] at hf
    by_cases hexr : existsSync fs r = true
    · simp only [hexr, if_true] at hf
      rcases hrd : readF fs r with _ | ic
      · rw [hrd] at hf; cases hf
      · rw [hrd] at hf
        simp only [Option.some.injEq, Prod.mk.injEq] at hf
        rcases hf with ⟨hq, hcq⟩
        subst hq
        subst hcq
        by_cases hrm : r = m
        · subst hrm
          simp only [hex r, hexr, if_true, hm', if_pos rfl]
        · simp only [hex r, hexr, if_true, hread r hrm, hrd, if_neg hrm]
    · simp only [Bool.not_eq_true] at hexr
      simp [hexr] at hf

theorem reach_transfer (fs fs' : FS) (sr m cm cm' : Str)
    (hex : ∀ q, existsSync fs' q = existsSync fs q)
    (hread : ∀ x, x ≠ m → readF fs' x = readF fs x)
    (hm' : readF fs' m = some cm') :
    ∀ p c r cr, Reach fs sr p c r cr → r = m → cr = cm →
      Reach fs' sr p (if p = m then cm' else c) m cm' := by
  intro p c r cr hr
  induction hr with
  | refl p2 c2 =>
    intro h1 h2
    subst h1
    rw [if_pos rfl]
    exact Reach.refl p2 cm'
  | step p2 c2 q2 cq2 r2 cr2 hmem hrest ihr =>
    intro h1 h2
    by_cases hpm : p2 = m
    · subst hpm
      rw [if_pos rfl]
      exact Reach.refl p2 cm'
    · rw [if_neg hpm]
      have hstep := succs_transfer fs fs' sr m cm' hex hread hm' p2 c2 q2 cq2 hmem
      exact Reach.step p2 c2 q2 _ m cm' hstep (ihr h1 h2)

theorem findGeneratedPages_eq_spec (fs : FS) (htmlDir routesDir : Str)
    (hne : existsSync fs [] = false) :
    ∀ htmlFiles : List Str,
      findGeneratedPages fs htmlFiles htmlDir routesDir =
        specPages fs htmlFiles htmlDir routesDir := by
  intro l
  induction l with
  | nil => rfl
  | cons h rest ih =>
    have hhead : findSourceForHtml fs h htmlDir routesDir =
        (match (specCandidates h routesDir).find? (fun cand => existsSync fs cand) with
         | some cand => (joinPath htmlDir h, cand)
         | none => (joinPath htmlDir h, ([] : Str))) := by
      simp only [findSourceForHtml, specCandidates]
    simp only [findGeneratedPages, specPages, List.map_cons, List.filter_cons,
      List.filterMap_cons]
    simp only [findGeneratedPages, specPages] at ih
    cases hf : (specCandidates h routesDir).find? (fun cand => existsSync fs cand) with
    | none =>
      rw [hf] at hhead
      simp only [hhead, List.isEmpty_nil, Bool.not_true, Bool.false_eq_true, if_false]
      exact ih
    | some cand =>
      rw [hf] at hhead
      have hcand : existsSync fs cand = true := by
        have := List.find?_some hf
        exact of_decide_eq_true (by simpa using this)
      have hcne : cand.isEmpty = false := by
        cases cand with
        | nil => rw [hne] at hcand; cases hcand
        | cons a t => rfl
      simp only [hhead, hcne, Bool.not_false, if_true]
      rw [ih]

/-- C1: classifyPage returns INTERACTIVE exactly when the closure-wide client
flag or one of the entry interactivity indicators is set; otherwise
ROUTING_ONLY exactly when hasClientSideRouting is set; otherwise PURE_STATIC.
The three characterisations are exhaustive and mutually exclusive, so exactly
one classification holds for every input. -/
theorem C1_classifyPage_precedence :
    ∀ (ind : PageIndicators) (hasClientCode : Bool),
      (classifyPage ind hasClientCode = PageClassification.INTERACTIVE ↔
        (hasClientCode || ind.hasEventHandlers || ind.usesReactHooks ||
          ind.hasClientComponents) = true) ∧
      (classifyPage ind hasClientCode = PageClassification.ROUTING_ONLY ↔
        (hasClientCode || ind.hasEventHandlers || ind.usesReactHooks ||
          ind.hasClientComponents) = false ∧ ind.hasClientSideRouting = true) ∧
      (classifyPage ind hasClientCode = PageClassification.PURE_STATIC ↔
        (hasClientCode || ind.hasEventHandlers || ind.usesReactHooks ||
          ind.hasClientComponents) = false ∧ ind.hasClientSideRouting = false) ∧
      (classifyPage ind hasClientCode = PageClassification.INTERACTIVE ∨
        classifyPage ind hasClientCode = PageClassification.ROUTING_ONLY ∨
        classifyPage ind hasClientCode = PageClassification.PURE_STATIC) := by
  intro ind hcc
  by_cases h1 : (hcc || ind.hasEventHandlers || ind.usesReactHooks ||
      ind.hasClientComponents) = true
  · simp [classifyPage, h1]
  · simp only [Bool.not_eq_true] at h1
    by_cases h2 : ind.hasClientSideRouting = true
    · simp [classifyPage, h1, h2]
    · simp only [Bool.not_eq_true] at h2
      simp [classifyPage, h1, h2]

/-- C2: hasAnyClientCode(entryPath, entryContent, sourceRootDir) returns true
iff some module of the dependency closure (the files reachable from the entry
by recursively following ./, ../ or alias imports that resolve to an existing,
readable file) contains a client-module marker, a hook pattern or an
event-handler pattern; unresolved or unreadable imports contribute no signal
and do not abort the crawl. The hypothesis ties the entry content to the file
system, exactly as analyzeGeneratedPage reads the entry before crawling. -/
theorem C2_closure_detection (fs : FS) (sourceRootDir entryPath entryContent : Str)
    (hread : readF fs entryPath = some entryContent) :
    hasAnyClientCode fs sourceRootDir entryPath entryContent = true ↔
      ∃ q cq, Reach fs sourceRootDir entryPath entryContent q cq ∧
        clientDetected cq = true :=
  hasAnyClientCode_iff fs sourceRootDir entryPath entryContent hread

theorem C2_closure_detection_witness :
    hasAnyClientCode ⟨[(("/a/e.tsx").toList, ("\"use client\"").toList)], []⟩ ("/a".toList)
        ("/a/e.tsx".toList) ("\"use client\"".toList) = true ↔
      ∃ q cq, Reach ⟨[(("/a/e.tsx").toList, ("\"use client\"").toList)], []⟩ ("/a".toList)
          ("/a/e.tsx".toList) ("\"use client\"".toList) q cq ∧ clientDetected cq = true :=
  C2_closure_detection _ _ _ _ (by decide)

/-- C3: for a page classified INTERACTIVE, processHtmlFile returns the
document unchanged — the identical node tree, hence a byte-for-byte identical
serialisation — with scriptsRemoved = 0 and preloadsRemoved = 0. -/
theorem C3_interactive_untouched :
    ∀ doc : List DomNode,
      (processHtmlFile PageClassification.INTERACTIVE doc).html = doc ∧
      renderNodes (processHtmlFile PageClassification.INTERACTIVE doc).html =
        renderNodes doc ∧
      (processHtmlFile PageClassification.INTERACTIVE doc).scriptsRemoved = 0 ∧
      (processHtmlFile PageClassification.INTERACTIVE doc).preloadsRemoved = 0 := by
  intro doc
  simp [processHtmlFile]

/-- C4 counterexample: a PURE_STATIC document whose only element is an inline
script of type application/ld+json with body `_next/static/` — a script
element whose inline content matches a framework-runtime pattern — is
preserved by stripping, so the output is not clean in the sense of the claim
as stated. -/
theorem C4_stripping_completeness_counterexample :
    claimCleanDoc (stripAllScripts
      [DomNode.elem "script" [("type", ("application/ld+json".toList))]
        [DomNode.text ("_next/static/".toList)]]).html = false := by
  set ld : Str := ("application/ld+json".toList) with hld
  set nxt : Str := ("_next/static/".toList) with hnxt
  set nd : DomNode := DomNode.elem "script" [("type", ld)] [DomNode.text nxt] with hnd
  have hsrc : getAttr [("type", ld)] "src" = none := by
    simp only [getAttr]
    rw [if_neg (by decide : ¬(("type" : String) = "src"))]
  have htype : getAttr [("type", ld)] "type" = some ld := by
    simp [getAttr]
  have hp1 : isRemovableSrcScript nd = false := by
    simp [hnd, isRemovableSrcScript, hasAttr, hsrc]
  have hpres : shouldPreserveInlineScript ld = true := by decide
  have hp2 : isRemovableInlineScript nd = false := by
    simp [hnd, isRemovableInlineScript, attrOr, htype, hpres]
  have hp3 : isRemovablePreloadLink nd = false :=
    preloadLink_ne_link _ _ _ (by decide)
  have hp4 : isRemovablePrefetchLink nd = false :=
    prefetchLink_ne_link _ _ _ (by decide)
  have hstep : ∀ p : DomNode → Bool, (∀ s, p (DomNode.text s) = false) → p nd = false →
      removeCountNodes p [nd] = ([nd], 0) := by
    intro p hp hpn
    have hchild := removeCount_textOnly p hp [DomNode.text nxt] (by simp [textOnly])
    simp [removeCountNodes, hnd, hpn, hchild]
  have e1 := hstep _ srcScript_text hp1
  have e2 := hstep _ inlineScript_text hp2
  have e3 := hstep _ preloadLink_text hp3
  have e4 := hstep _ prefetchLink_text hp4
  have hstrip : (stripAllScripts [nd]).html = [nd] := by
    simp [stripAllScripts, e1, e2, e3, e4]
  rw [hstrip]
  have hcol : collectNodes [nd] = [nd] := by
    simp [hnd, collectNodes]
  have hren : renderNodes [DomNode.text nxt] = nxt := by
    simp [renderNodes, renderNode]
  have hnxtm : isNextJsScript nxt = true := by decide
  have hmatch : matchesFrameworkClaim nd = true := by
    simp [hnd, matchesFrameworkClaim, hren, hnxtm]
  simp [claimCleanDoc, hcol, hmatch]

/-- C4 (amended): for a parse-realistic document (script and link elements
contain only text, as the HTML parser guarantees), the stripped output
contains no external script whose src matches a framework pattern, no inline
script of a non-preserved type whose content matches one, and no
preload-as-script, modulepreload or prefetch-as-script link whose href matches
one. Inline scripts whose declared type is preserved (structured data or
non-executable types) are exempt, as are preload and prefetch links without
as="script". -/
theorem C4_stripping_completeness_amended :
    ∀ doc : List DomNode, wellFormedNodes doc = true →
      residualCleanDoc (stripAllScripts doc).html = true :=
  fun doc h => strip_residualClean doc h

theorem C4_stripping_completeness_amended_witness :
    residualCleanDoc (stripAllScripts
      [DomNode.elem "script" [("src", ("/_next/static/a.js".toList))] []]).html = true :=
  C4_stripping_completeness_amended _ (by simp [wellFormedNodes, textOnly])

/-- C5: with a non-empty navigation-helper payload, getProcessedHtml reports
routerInjected exactly for ROUTING_ONLY pages; for ROUTING_ONLY pages the body
survives stripping and every body element of the output ends with the helper
script as its last child; for other classifications nothing is injected and
the document is the unmodified processHtmlFile output. -/
theorem C5_router_exclusivity :
    ∀ (classification : PageClassification) (doc : List DomNode) (payload : Str),
      payload ≠ [] →
      wellFormedNodes doc = true →
      hasBodyNodes doc = true →
      ((getProcessedHtml classification doc (some payload)).routerInjected = true ↔
        classification = PageClassification.ROUTING_ONLY) ∧
      (classification = PageClassification.ROUTING_ONLY →
        hasBodyNodes (getProcessedHtml classification doc (some payload)).html = true ∧
        bodiesEndWith (spaScriptNode payload)
          (getProcessedHtml classification doc (some payload)).html = true) ∧
      (classification ≠ PageClassification.ROUTING_ONLY →
        (getProcessedHtml classification doc (some payload)).routerInjected = false ∧
        (getProcessedHtml classification doc (some payload)).html =
          (processHtmlFile classification doc).html) := by
  intro cls doc payload hpay hwf hbody
  have htr : strTruthy (some payload) = true := by
    cases payload with
    | nil => exact absurd rfl hpay
    | cons a t => rfl
  by_cases hcl : cls = PageClassification.ROUTING_ONLY
  · subst hcl
    have hred : getProcessedHtml PageClassification.ROUTING_ONLY doc (some payload) =
        { html := appendToBodyNodes (spaScriptNode payload)
            (processHtmlFile PageClassification.ROUTING_ONLY doc).html
          scriptsRemoved := (processHtmlFile PageClassification.ROUTING_ONLY doc).scriptsRemoved
          preloadsRemoved :=
            (processHtmlFile PageClassification.ROUTING_ONLY doc).preloadsRemoved
          routerInjected := true } := by
      simp [getProcessedHtml, htr]
    refine ⟨?_, fun _ => ⟨?_, ?_⟩, fun hne => absurd rfl hne⟩
    · rw [hred]
      simp
    · rw [hred]
      apply append_hasBody
      simp only [processHtmlFile,
        if_neg (show ¬(PageClassification.ROUTING_ONLY = PageClassification.INTERACTIVE)
          from by intro hx; cases hx)]
      exact strip_hasBody doc hwf hbody
    · rw [hred]
      exact append_bodiesEnd payload _
  · have hcond : ¬(cls = PageClassification.ROUTING_ONLY ∧
        strTruthy (some payload) = true) := fun hx => hcl hx.1
    have hred2 : getProcessedHtml cls doc (some payload) =
        { html := (processHtmlFile cls doc).html
          scriptsRemoved := (processHtmlFile cls doc).scriptsRemoved
          preloadsRemoved := (processHtmlFile cls doc).preloadsRemoved
          routerInjected := false } := by
      simp only [getProcessedHtml, if_neg hcond]
    refine ⟨?_, fun hx => absurd hx hcl, fun _ => ⟨?_, ?_⟩⟩
    · rw [hred2]
      simp [hcl]
    · rw [hred2]
    · rw [hred2]

theorem C5_router_exclusivity_witness :
    (((getProcessedHtml PageClassification.ROUTING_ONLY [DomNode.elem "body" [] []]
        (some ("x".toList))).routerInjected = true ↔
      PageClassification.ROUTING_ONLY = PageClassification.ROUTING_ONLY) ∧
    (PageClassification.ROUTING_ONLY = PageClassification.ROUTING_ONLY →
      hasBodyNodes (getProcessedHtml PageClassification.ROUTING_ONLY
        [DomNode.elem "body" [] []] (some ("x".toList))).html = true ∧
      bodiesEndWith (spaScriptNode ("x".toList))
        (getProcessedHtml PageClassification.ROUTING_ONLY [DomNode.elem "body" [] []]
          (some ("x".toList))).html = true) ∧
    (PageClassification.ROUTING_ONLY ≠ PageClassification.ROUTING_ONLY →
      (getProcessedHtml PageClassification.ROUTING_ONLY [DomNode.elem "body" [] []]
        (some ("x".toList))).routerInjected = false ∧
      (getProcessedHtml PageClassification.ROUTING_ONLY [DomNode.elem "body" [] []]
        (some ("x".toList))).html =
        (processHtmlFile PageClassification.ROUTING_ONLY
          [DomNode.elem "body" [] []]).html)) :=
  C5_router_exclusivity PageClassification.ROUTING_ONLY [DomNode.elem "body" [] []]
    ("x".toList) (by decide)
    (by simp [wellFormedNodes, textOnly,
      show (("body" == "script") : Bool) = false from by decide,
      show (("body" == "link") : Bool) = false from by decide])
    (by simp [hasBodyNodes])

/-- C6: for documents processed as PURE_STATIC or ROUTING_ONLY (any
non-INTERACTIVE classification), every inline script whose declared type is
application/ld+json is preserved verbatim — the ld+json scripts of the output
equal those of the input, regardless of their textual content. -/
theorem C6_ldjson_preserved :
    ∀ (classification : PageClassification) (doc : List DomNode),
      classification ≠ PageClassification.INTERACTIVE →
      wellFormedNodes doc = true →
      collectLdJson (processHtmlFile classification doc).html = collectLdJson doc := by
  intro cls doc hcls hwf
  simp only [processHtmlFile, if_neg hcls]
  exact strip_ldjson doc hwf

theorem C6_ldjson_preserved_witness :
    collectLdJson (processHtmlFile PageClassification.PURE_STATIC
      [DomNode.elem "script" [("type", ("application/ld+json".toList))]
        [DomNode.text ("_next/static/".toList)]]).html =
    collectLdJson
      [DomNode.elem "script" [("type", ("application/ld+json".toList))]
        [DomNode.text ("_next/static/".toList)]] :=
  C6_ldjson_preserved PageClassification.PURE_STATIC _
    (by intro h; cases h)
    (by simp [wellFormedNodes, textOnly])

theorem cycle_equiv (ca cb cb' : Str)
    (hA : extractLocalImports ca = [("./B".toList)])
    (hB : extractLocalImports cb = [("./A".toList)])
    (hB' : extractLocalImports cb' = [])
    (hEq : clientDetected cb' = clientDetected cb) :
    hasAnyClientCode ⟨[(("/r/A.tsx").toList, ca), (("/r/B.tsx").toList, cb)], []⟩
        ("/r".toList) ("/r/A.tsx".toList) ca =
      hasAnyClientCode ⟨[(("/r/A.tsx").toList, ca), (("/r/B.tsx").toList, cb')], []⟩
        ("/r".toList) ("/r/A.tsx".toList) ca := by
  have hsA : succs ⟨[(("/r/A.tsx").toList, ca), (("/r/B.tsx").toList, cb)], []⟩
      ("/r".toList) ("/r/A.tsx".toList) ca = [(("/r/B.tsx").toList, cb)] := by
    simp only [succs]
    rw [hA]
    rfl
  have hsB : succs ⟨[(("/r/A.tsx").toList, ca), (("/r/B.tsx").toList, cb)], []⟩
      ("/r".toList) ("/r/B.tsx".toList) cb = [(("/r/A.tsx").toList, ca)] := by
    simp only [succs]
    rw [hB]
    rfl
  have hsA' : succs ⟨[(("/r/A.tsx").toList, ca), (("/r/B.tsx").toList, cb')], []⟩
      ("/r".toList) ("/r/A.tsx".toList) ca = [(("/r/B.tsx").toList, cb')] := by
    simp only [succs]
    rw [hA]
    rfl
  have hsB' : succs ⟨[(("/r/A.tsx").toList, ca), (("/r/B.tsx").toList, cb')], []⟩
      ("/r".toList) ("/r/B.tsx".toList) cb' = [] := by
    simp only [succs]
    rw [hB']
    rfl
  have hreadA : readF ⟨[(("/r/A.tsx").toList, ca), (("/r/B.tsx").toList, cb)], []⟩
      ("/r/A.tsx".toList) = some ca := rfl
  have hreadA' : readF ⟨[(("/r/A.tsx").toList, ca), (("/r/B.tsx").toList, cb')], []⟩
      ("/r/A.tsx".toList) = some ca := rfl
  have hS : ∀ x cx, ((x = ("/r/A.tsx".toList) ∧ cx = ca) ∨ (x = ("/r/B.tsx".toList) ∧ cx = cb)) →
      ∀ e ∈ succs ⟨[(("/r/A.tsx").toList, ca), (("/r/B.tsx").toList, cb)], []⟩
        ("/r".toList) x cx,
      ((e.1 = ("/r/A.tsx".toList) ∧ e.2 = ca) ∨ (e.1 = ("/r/B.tsx".toList) ∧ e.2 = cb)) := by
    rintro x cx (⟨hx, hc⟩ | ⟨hx, hc⟩) e he <;> subst hx <;> subst hc
    · rw [hsA] at he
      rcases List.mem_singleton.mp he with rfl
      exact Or.inr ⟨rfl, rfl⟩
    · rw [hsB] at he
      rcases List.mem_singleton.mp he with rfl
      exact Or.inl ⟨rfl, rfl⟩
  have hS' : ∀ x cx, ((x = ("/r/A.tsx".toList) ∧ cx = ca) ∨ (x = ("/r/B.tsx".toList) ∧ cx = cb')) →
      ∀ e ∈ succs ⟨[(("/r/A.tsx").toList, ca), (("/r/B.tsx").toList, cb')], []⟩
        ("/r".toList) x cx,
      ((e.1 = ("/r/A.tsx".toList) ∧ e.2 = ca) ∨ (e.1 = ("/r/B.tsx".toList) ∧ e.2 = cb')) := by
    rintro x cx (⟨hx, hc⟩ | ⟨hx, hc⟩) e he <;> subst hx <;> subst hc
    · rw [hsA'] at he
      rcases List.mem_singleton.mp he with rfl
      exact Or.inr ⟨rfl, rfl⟩
    · rw [hsB'] at he
      cases he
  have hL : (hasAnyClientCode ⟨[(("/r/A.tsx").toList, ca), (("/r/B.tsx").toList, cb)], []⟩
      ("/r".toList) ("/r/A.tsx".toList) ca = true) ↔
      (clientDetected ca = true ∨ clientDetected cb = true) := by
    rw [hasAnyClientCode_iff _ _ _ _ hreadA]
    constructor
    · rintro ⟨q, cq, hr, hm⟩
      rcases reach_closed _ _ _ hS _ _ _ _ hr (Or.inl ⟨rfl, rfl⟩) with ⟨_, hc⟩ | ⟨_, hc⟩
      · subst hc; exact Or.inl hm
      · subst hc; exact Or.inr hm
    · rintro (hm | hm)
      · exact ⟨_, ca, Reach.refl _ ca, hm⟩
      · exact ⟨_, cb, Reach.step _ ca _ cb _ cb
          (by rw [hsA]; exact List.mem_singleton_self _) (Reach.refl _ cb), hm⟩
  have hR : (hasAnyClientCode ⟨[(("/r/A.tsx").toList, ca), (("/r/B.tsx").toList, cb')], []⟩
      ("/r".toList) ("/r/A.tsx".toList) ca = true) ↔
      (clientDetected ca = true ∨ clientDetected cb' = true) := by
    rw [hasAnyClientCode_iff _ _ _ _ hreadA']
    constructor
    · rintro ⟨q, cq, hr, hm⟩
      rcases reach_closed _ _ _ hS' _ _ _ _ hr (Or.inl ⟨rfl, rfl⟩) with ⟨_, hc⟩ | ⟨_, hc⟩
      · subst hc; exact Or.inl hm
      · subst hc; exact Or.inr hm
    · rintro (hm | hm)
      · exact ⟨_, ca, Reach.refl _ ca, hm⟩
      · exact ⟨_, cb', Reach.step _ ca _ cb' _ cb'
          (by rw [hsA']; exact List.mem_singleton_self _) (Reach.refl _ cb'), hm⟩
  rw [hEq] at hR
  have hiff := hL.trans hR.symm
  cases hx : hasAnyClientCode ⟨[(("/r/A.tsx").toList, ca), (("/r/B.tsx").toList, cb)], []⟩
      ("/r".toList) ("/r/A.tsx".toList) ca <;>
    cases hy : hasAnyClientCode ⟨[(("/r/A.tsx").toList, ca), (("/r/B.tsx").toList, cb')], []⟩
      ("/r".toList) ("/r/A.tsx".toList) ca <;>
    simp_all

/-- C7: the crawl is total by construction (the definition is accepted by
termination checking for every file system and import graph); the visited
list — one insertion per inspected module — never contains a duplicate, so
each module is inspected at most once per page; and on the two-module cycle
A imports B, B imports A, the aggregated result equals the result on the
acyclic graph in which the back edge from B to the entry A is removed,
whenever the edit that removes it leaves the interactivity markers of B
unchanged. -/
theorem C7_cycle_safety :
    (∀ (fs : FS) (sr : Str) (fuel : Nat) (p c : Str),
      ((checkClientCodeRecursive fs sr fuel p c []).2).Nodup) ∧
    (∀ ca cb cb' : Str,
      extractLocalImports ca = [("./B".toList)] →
      extractLocalImports cb = [("./A".toList)] →
      extractLocalImports cb' = [] →
      clientDetected cb' = clientDetected cb →
      hasAnyClientCode ⟨[(("/r/A.tsx").toList, ca), (("/r/B.tsx").toList, cb)], []⟩
          ("/r".toList) ("/r/A.tsx".toList) ca =
        hasAnyClientCode ⟨[(("/r/A.tsx").toList, ca), (("/r/B.tsx").toList, cb')], []⟩
          ("/r".toList) ("/r/A.tsx".toList) ca) :=
  ⟨fun fs sr fuel p c => checkRec_nodup fs sr fuel p c [] List.nodup_nil,
   fun ca cb cb' hA hB hB' hEq => cycle_equiv ca cb cb' hA hB hB' hEq⟩

theorem C7_cycle_safety_witness :
    ((checkClientCodeRecursive ⟨[], []⟩ ("/r".toList) 2 ("/r/A.tsx".toList)
      ("x".toList) []).2).Nodup ∧
    hasAnyClientCode ⟨[(("/r/A.tsx").toList, ("import x from \"./B\"".toList)),
        (("/r/B.tsx").toList, ("import y from \"./A\"".toList))], []⟩
        ("/r".toList) ("/r/A.tsx".toList) ("import x from \"./B\"".toList) =
      hasAnyClientCode ⟨[(("/r/A.tsx").toList, ("import x from \"./B\"".toList)),
        (("/r/B.tsx").toList, ([] : Str))], []⟩
        ("/r".toList) ("/r/A.tsx".toList) ("import x from \"./B\"".toList) :=
  ⟨C7_cycle_safety.1 ⟨[], []⟩ ("/r".toList) 2 ("/r/A.tsx".toList) ("x".toList),
   C7_cycle_safety.2 ("import x from \"./B\"".toList) ("import y from \"./A\"".toList) []
     (by decide) (by decide) (by decide) (by decide)⟩

/-- C8: editing one module m of the dependency closure so that an
event-handler, hook or client-marker detector fires on its new text — while
every other module, every path existence and the import edges into m are
unchanged — makes the classification INTERACTIVE; in particular the edit
never moves a classification from INTERACTIVE to ROUTING_ONLY or PURE_STATIC,
nor from ROUTING_ONLY to PURE_STATIC. -/
theorem C8_monotonicity :
    ∀ (fs fs' : FS) (sr p c html m cm cm' : Str),
      (∀ q, existsSync fs' q = existsSync fs q) →
      (∀ x, x ≠ m → readF fs' x = readF fs x) →
      readF fs m = some cm →
      readF fs' m = some cm' →
      readF fs p = some c →
      clientDetected cm' = true →
      Reach fs sr p c m cm →
      analyzeClassification fs' sr p (if p = m then cm' else c) html =
        PageClassification.INTERACTIVE ∧
      (analyzeClassification fs sr p c html = PageClassification.INTERACTIVE →
        analyzeClassification fs' sr p (if p = m then cm' else c) html =
          analyzeClassification fs sr p c html) := by
  intro fs fs' sr p c html m cm cm' hex hrd hm hm' hp hdet hreach
  have hreach' : Reach fs' sr p (if p = m then cm' else c) m cm' :=
    reach_transfer fs fs' sr m cm cm' hex hrd hm' p c m cm hreach rfl rfl
  have hp' : readF fs' p = some (if p = m then cm' else c) := by
    by_cases hpm : p = m
    · subst hpm
      rw [if_pos rfl]
      exact hm'
    · rw [if_neg hpm, hrd p hpm]
      exact hp
  have hacc : hasAnyClientCode fs' sr p (if p = m then cm' else c) = true :=
    (hasAnyClientCode_iff fs' sr p _ hp').mpr ⟨m, cm', hreach', hdet⟩
  have hclass : analyzeClassification fs' sr p (if p = m then cm' else c) html =
      PageClassification.INTERACTIVE := by
    simp [analyzeClassification, classifyPage, hacc]
  exact ⟨hclass, fun hold => by rw [hclass, hold]⟩

theorem C8_monotonicity_witness :
    analyzeClassification ⟨[(("/a/e.tsx").toList, ("\"use client\"".toList))], []⟩
        ("/a".toList) ("/a/e.tsx".toList)
        (if ("/a/e.tsx".toList : Str) = ("/a/e.tsx".toList) then ("\"use client\"".toList)
          else ("x".toList)) ("h".toList) =
      PageClassification.INTERACTIVE ∧
    (analyzeClassification ⟨[(("/a/e.tsx").toList, ("x".toList))], []⟩
        ("/a".toList) ("/a/e.tsx".toList) ("x".toList) ("h".toList) =
        PageClassification.INTERACTIVE →
      analyzeClassification ⟨[(("/a/e.tsx").toList, ("\"use client\"".toList))], []⟩
          ("/a".toList) ("/a/e.tsx".toList)
          (if ("/a/e.tsx".toList : Str) = ("/a/e.tsx".toList) then ("\"use client\"".toList)
            else ("x".toList)) ("h".toList) =
        analyzeClassification ⟨[(("/a/e.tsx").toList, ("x".toList))], []⟩
          ("/a".toList) ("/a/e.tsx".toList) ("x".toList) ("h".toList)) :=
  C8_monotonicity ⟨[(("/a/e.tsx").toList, ("x".toList))], []⟩
    ⟨[(("/a/e.tsx").toList, ("\"use client\"".toList))], []⟩
    ("/a".toList) ("/a/e.tsx".toList) ("x".toList) ("h".toList)
    ("/a/e.tsx".toList) ("x".toList) ("\"use client\"".toList)
    (by
      intro q
      simp only [existsSync, readF, lookupPath]
      split <;> rfl)
    (by
      intro x hx
      simp only [readF, lookupPath]
      rw [if_neg (fun hq => hx hq.symm), if_neg (fun hq => hx hq.symm)])
    (by decide) (by decide) (by decide) (by decide)
    (Reach.refl _ _)

/-- C9: findGeneratedPages pairs each discovered HTML file with the first
existing candidate among route.tsx, route.jsx, route/page.tsx, route/page.jsx
under the routes directory, and excludes every HTML file for which no
candidate exists, so no classification is attempted for it. The hypothesis
says the empty path names no file — true of every real file system. -/
theorem C9_missing_source_excluded :
    ∀ (fs : FS) (htmlFiles : List Str) (htmlDir routesDir : Str),
      existsSync fs [] = false →
      findGeneratedPages fs htmlFiles htmlDir routesDir =
        specPages fs htmlFiles htmlDir routesDir :=
  fun fs htmlFiles htmlDir routesDir hne =>
    findGeneratedPages_eq_spec fs htmlDir routesDir hne htmlFiles

theorem C9_missing_source_excluded_witness :
    findGeneratedPages ⟨[(("/s/about.tsx").toList, [])], []⟩
        [("about.html".toList), ("missing.html".toList)] ("/out".toList) ("/s".toList) =
      specPages ⟨[(("/s/about.tsx").toList, [])], []⟩
        [("about.html".toList), ("missing.html".toList)] ("/out".toList) ("/s".toList) :=
  C9_missing_source_excluded ⟨[(("/s/about.tsx").toList, [])], []⟩
    [("about.html".toList), ("missing.html".toList)] ("/out".toList) ("/s".toList)
    (by decide)

theorem any_map_apply (f : Str → Str → Bool) (l : List Str) (s : Str) :
    ((l.map f).any fun p => p s) = l.any fun x => f x s := by
  induction l with
  | nil => rfl
  | cons a rest ih => simp [List.any_cons, ih]

theorem lastO_single (p : Option Char) (c : Char) : lastO p [c] = some c := rfl

theorem detectEventHandlers_split (s : Str) :
    detectEventHandlers s =
      (EVENT_HANDLER_LITS_A.any (fun l => testWordBoundaryPat l s) ||
        (containsSub ('\n' :: onTouchMoveLit) s ||
          EVENT_HANDLER_LITS_B.any (fun l => testWordBoundaryPat l s))) := by
  simp only [detectEventHandlers, EVENT_HANDLER_PROPS, List.any_append, List.any_cons,
    List.any_nil, Bool.or_assoc, Bool.or_false]
  rw [any_map_apply, any_map_apply]

/-- C10: the event-handler catalog matches each boundary-anchored handler
attribute at any word boundary, but its onTouchMove entry is anchored to a
literal newline: a text whose only onTouchMove= occurrences sit after a space
(with no other handler pattern present) is not detected, while the same text
with onClick= in that position is detected. -/
theorem C10_touchmove_newline_anchor :
    (∀ a b : Str,
      (∀ x y, a ++ (' ' :: onTouchMoveLit) ++ b = x ++ onTouchMoveLit ++ y →
        lastO none x = some ' ') →
      (EVENT_HANDLER_LITS_A ++ EVENT_HANDLER_LITS_B).any
        (fun l => testWordBoundaryPat l (a ++ (' ' :: onTouchMoveLit) ++ b)) = false →
      detectEventHandlers (a ++ (' ' :: onTouchMoveLit) ++ b) = false ∧
      detectEventHandlers (a ++ (' ' :: ("onClick=".toList)) ++ b) = true) ∧
    (∀ lit ∈ EVENT_HANDLER_LITS_A ++ EVENT_HANDLER_LITS_B, ∀ u v : Str,
      wordO (lastO none u) = false →
      detectEventHandlers (u ++ lit ++ v) = true) := by
  constructor
  · intro a b hOnly hOthers
    rw [List.any_append, Bool.or_eq_false_iff] at hOthers
    constructor
    · rw [detectEventHandlers_split]
      have htm : containsSub ('\n' :: onTouchMoveLit) (a ++ (' ' :: onTouchMoveLit) ++ b) =
          false := by
        cases hc : containsSub ('\n' :: onTouchMoveLit) (a ++ (' ' :: onTouchMoveLit) ++ b) with
        | false => rfl
        | true =>
          exfalso
          rcases (containsSub_iff _ _).mp hc with ⟨x, y, hxy⟩
          have hxy2 : a ++ (' ' :: onTouchMoveLit) ++ b =
              (x ++ ['\n']) ++ onTouchMoveLit ++ y := by
            simpa [List.append_assoc] using hxy
          have hlast := hOnly (x ++ ['\n']) y hxy2
          rw [lastO_append, lastO_single] at hlast
          have : ('\n' : Char) = ' ' := Option.some.inj hlast
          exact absurd this (by decide)
      rw [hOthers.1, hOthers.2, htm]
      rfl
    · have hob : testWordBoundaryPat ("onClick=".toList)
          (a ++ (' ' :: ("onClick=".toList)) ++ b) = true := by
        apply (scanStr_eq_true_iff _ _ _).mpr
        refine ⟨a ++ [' '], ("onClick=".toList) ++ b, by simp [List.append_assoc], ?_⟩
        show (isBoundary (lastO none (a ++ [' '])) (("onClick=".toList).head?) &&
          pfx ("onClick=".toList) (("onClick=".toList) ++ b)) = true
        rw [lastO_append, lastO_single, Bool.and_eq_true]
        exact ⟨by decide, (pfx_iff _ _).mpr ⟨b, rfl⟩⟩
      rw [detectEventHandlers_split]
      have hmem : EVENT_HANDLER_LITS_A.any
          (fun l => testWordBoundaryPat l (a ++ (' ' :: ("onClick=".toList)) ++ b)) = true :=
        List.any_eq_true.mpr ⟨("onClick=".toList), by decide, hob⟩
      rw [hmem]
      rfl
  · intro lit hlit u v hb
    have hw : ∀ l ∈ EVENT_HANDLER_LITS_A ++ EVENT_HANDLER_LITS_B,
        wordO l.head? = true := by decide
    have htest : testWordBoundaryPat lit (u ++ lit ++ v) = true := by
      apply (scanStr_eq_true_iff _ _ _).mpr
      refine ⟨u, lit ++ v, by simp [List.append_assoc], ?_⟩
      show (isBoundary (lastO none u) lit.head? && pfx lit (lit ++ v)) = true
      rw [Bool.and_eq_true]
      refine ⟨?_, (pfx_iff _ _).mpr ⟨v, rfl⟩⟩
      simp [isBoundary, hb, hw lit hlit]
    have hmemP : testWordBoundaryPat lit ∈ EVENT_HANDLER_PROPS := by
      rcases List.mem_append.mp hlit with ha | hbm
      · exact List.mem_append_left _
          (List.mem_append_left _ (List.mem_map_of_mem testWordBoundaryPat ha))
      · exact List.mem_append_right _ (List.mem_map_of_mem testWordBoundaryPat hbm)
    exact List.any_eq_true.mpr ⟨testWordBoundaryPat lit, hmemP, htest⟩

theorem C10_touchmove_newline_anchor_witness :
    (detectEventHandlers (([] : Str) ++ (' ' :: onTouchMoveLit) ++ []) = false ∧
      detectEventHandlers (([] : Str) ++ (' ' :: ("onClick=".toList)) ++ []) = true) ∧
    detectEventHandlers (([] : Str) ++ ("onChange=".toList) ++ ("x".toList)) = true :=
  ⟨C10_touchmove_newline_anchor.1 [] []
      (by
        intro x y hxy
        exact (litOnlyAfter_spec ' ' onTouchMoveLit (' ' :: onTouchMoveLit)).mp
          (by decide) x y (by simpa using hxy))
      (by decide),
   C10_touchmove_newline_anchor.2 ("onChange=".toList) (by decide) [] ("x".toList)
     (by decide)⟩
